import Mathlib

/-!
Verification of the auto-vectorization scheduler of
`rpython/jit/metainterp/optimizeopt/schedule.py`.

The development shallowly embeds the scheduler (`Scheduler.next`,
`Scheduler.mark_emitted`, `Scheduler.walk_and_emit`, `VecScheduleState.emit`,
`Scheduler.try_to_trash_pack`) over an explicit graph state, and the
pack/type-restriction machinery (`Pack`, `TypeRestrict`, `turn_into_vector`,
`prepare_arguments`, `prepare_fail_arguments`, ...) over an explicit
operation type.  Data that lives in files not part of the sources here
(`dependency.py`, `resoperation.py`, `history.py`) is modelled from the
specification, as marked in the corresponding doc comments.
-/

namespace Sched

/-- Modelled from the spec: a dependency-graph `Node` (`dependency.py` is not
among the sources).  It wraps an operation, and carries `priority` and the
original trace position `tidx` (the code's `getindex()`), plus the
`is_imaginary` flag.  Mutable per-node state (`emitted`, `pack`, dependency
edges) is kept in the scheduler state, keyed by `nid`. -/
structure SNode where
  nid : Nat
  priority : Int
  tidx : Nat
  imaginary : Bool
deriving DecidableEq, Repr

/-- A dependency edge, as a (source node, target node) pair: the source
`provides` the target, the target `depends on` the source. -/
abbrev Edge := SNode × SNode

/-- An entry of the emitted operation list: either the scalar operation of a
graph node, or the single vector operation that an entire pack was turned
into (`turn_into_vector` appends exactly one operation per pack). -/
inductive EOp where
  | scalar (nid : Nat)
  | vec (pid : Nat)
deriving DecidableEq, Repr

/-- A pack of the packset, as seen by the scheduler: its member nodes in
order, and whether it is an accumulating pack (which changes the delay
rule), plus whether `turn_into_vector` accepts it (`check_if_pack_supported`
and the restriction checks; their value-level content is modelled in the
operation-level development below, here only the control effect matters:
an unsupported pack raises and aborts the schedule). -/
structure PackInfo where
  pid : Nat
  members : List SNode
  accum : Bool
  supported : Bool
deriving DecidableEq, Repr

/-- The mutable scheduler state: remaining dependency edges, the set of
emitted node ids, the priority-sorted worklist, the emitted oplist and the
node-to-pack membership map (`node.pack`, cleared by `Pack.clear`). -/
structure VState where
  edges : List Edge
  emitted : List Nat
  worklist : List SNode
  oplist : List EOp
  packOf : List (Nat × Nat)
deriving DecidableEq, Repr

/-- `node.depends_count()`: the number of dependency edges pointing at the
node. -/
def dependsCount (edges : List Edge) (n : Nat) : Nat :=
  (edges.filter (fun e => e.2.nid == n)).length

/-- Look up the pack id a node currently belongs to (`node.pack`). -/
def lookupPack (po : List (Nat × Nat)) (n : Nat) : Option Nat :=
  (po.find? (fun kv => kv.1 == n)).map (·.2)

/-- Find a pack of the packset by its id. -/
def findPack (packs : List PackInfo) (pid : Nat) : Option PackInfo :=
  packs.find? (fun pk => pk.pid == pid)

/-- The insertion scan of `Scheduler.mark_emitted`, lines 149-164, written on
the reversed worklist (the code scans `i` from the tail to the head): walking
from the tail, the target is inserted right after the first node `cur` with
`cur.priority < target.priority`, or with equal priority and
`target.getindex() < cur.getindex()`; if the scan falls off the head the
target is inserted at position 0. -/
def insRev (t : SNode) : List SNode → List SNode
  | [] => [t]
  | c :: rest =>
    if c.priority < t.priority ∨ (c.priority = t.priority ∧ t.tidx < c.tidx) then
      t :: c :: rest
    else
      c :: insRev t rest

/-- Worklist insertion keeping the sort order (see `insRev`). -/
def insertByPriority (t : SNode) (wl : List SNode) : List SNode :=
  (insRev t wl.reverse).reverse

/-- The worklist order maintained by `mark_emitted`, from head to tail:
priority ascending; within equal priority, original trace index descending
(so the tail holds a maximal-priority node with the least trace index). -/
def wlLE (a b : SNode) : Prop :=
  a.priority < b.priority ∨ (a.priority = b.priority ∧ b.tidx ≤ a.tidx)

instance : DecidableRel wlLE := fun a b => by
  unfold wlLE; infer_instance

/-- The worklist sorting invariant. -/
def WlSorted (wl : List SNode) : Prop := List.Pairwise wlLE wl

instance : DecidablePred WlSorted := fun wl => by
  unfold WlSorted; infer_instance

/-- One pass of the out-edge loop of `mark_emitted` (lines 144-164): remove
the edge; if the target's dependency count dropped to zero and it is not
yet emitted, insert it into the worklist by priority. -/
def markStepF (acc : VState) (e : Edge) : VState :=
  let acc1 : VState := { acc with edges := acc.edges.erase e }
  if e.2.nid ∉ acc1.emitted ∧ dependsCount acc1.edges e.2.nid = 0 then
    { acc1 with worklist := insertByPriority e.2 acc1.worklist }
  else acc1

/-- `Scheduler.mark_emitted(node, state)` (lines 138-172): remove each
out-edge of `node` in turn; each target whose dependency count thereby drops
to zero and which is not yet emitted is inserted into the worklist by
priority; then the node's remaining edges are cleared and it is marked
emitted.  (The renamer, argument unpacking and `post_emit` act on operation
values, not on the graph, and are modelled in the operation-level
development.) -/
def markEmitted (node : SNode) (st : VState) : VState :=
  let provides := st.edges.filter (fun e => e.1.nid == node.nid)
  let st1 := provides.foldl markStepF st
  { st1 with
      edges := st1.edges.filter (fun e => e.1.nid ≠ node.nid ∧ e.2.nid ≠ node.nid),
      emitted := node.nid :: st1.emitted }

/-- `Scheduler.next(state)` (lines 90-104), parameterized over the
`emitted` test and the `delay` test, with explicit fuel (the Python loop
terminates because every iteration either shortens the worklist or
increments `visited`, and the loop stops once `visited` reaches the
worklist length; `schedNext_spec` below proves the supplied fuel is never
exhausted).  Pops the worklist tail; already-emitted nodes are dropped
silently; a non-delayed node is returned; a delayed node is reinserted at
the head and counted.  Returns the candidate (or `none`) together with the
remaining worklist; the outer `none` is the fuel sentinel. -/
def nextAux (em dl : SNode → Bool) :
    Nat → List SNode → Nat → Option (Option SNode × List SNode)
  | 0, _, _ => none
  | fuel + 1, wl, visited =>
    if wl.isEmpty then some (none, wl)
    else if visited = wl.length then some (none, wl)
    else
      match wl.getLast? with
      | none => some (none, wl)
      | some node =>
        let rest := wl.dropLast
        if em node then nextAux em dl fuel rest visited
        else if ¬ dl node then some (some node, rest)
        else nextAux em dl fuel (node :: rest) (visited + 1)

/-- `Scheduler.next` with the fuel bound `2·|worklist| + 1`, which
`schedNext_spec` proves sufficient. -/
def schedNext (em dl : SNode → Bool) (wl : List SNode) :
    Option (Option SNode × List SNode) :=
  nextAux em dl (2 * wl.length + 1) wl 0

/-- `VecScheduleState.delay(node)` (lines 784-796).  For a node of an
accumulating pack: delayed while some member still depends on a node
outside the pack (modelled from the spec for the edge accessors of
`dependency.py`: "a node in an accumulating pack is delayed until every
depended-on node either resides in the same pack or is already emitted";
edges of emitted nodes are already cleared).  For a node of an ordinary
pack: delayed while any member has a positive dependency count. -/
def vecDelay (packs : List PackInfo) (st : VState) (node : SNode) : Bool :=
  match lookupPack st.packOf node.nid with
  | none => false
  | some pid =>
    match findPack packs pid with
    | none => false
    | some pk =>
      if pk.accum then
        pk.members.any (fun m =>
          st.edges.any (fun e =>
            e.2.nid == m.nid && lookupPack st.packOf e.1.nid != some pid))
      else
        pk.members.any (fun m => dependsCount st.edges m.nid > 0)

/-- `Scheduler.delay(node, state)` (lines 131-136): the state's delay rule,
or an unresolved dependency. -/
def schedDelay (packs : List PackInfo) (st : VState) (node : SNode) : Bool :=
  vecDelay packs st node || dependsCount st.edges node.nid != 0

/-- `VecScheduleState.emit(node, scheduler)` (lines 771-782).  A node with a
pack marks every member emitted (without unpacking) and turns the pack into
a single vector operation, appended to the oplist; `none` models the
`assert node.pack.numops() > 1` failure and a `turn_into_vector` exception
(`NotAProfitableLoop` / `NotAVectorizeableLoop`, here abstracted into
`PackInfo.supported`; the value-level checks live in the operation model).
A node without a pack returns `false`: the caller emits it as a scalar. -/
def vecEmit (packs : List PackInfo) (st : VState) (node : SNode) :
    Option (Bool × VState) :=
  match lookupPack st.packOf node.nid with
  | none => some (false, st)
  | some pid =>
    match findPack packs pid with
    | none => none
    | some pk =>
      if pk.members.length ≤ 1 then none
      else if ¬ pk.supported then none
      else
        let st1 := pk.members.foldl (fun acc m => markEmitted m acc) st
        some (true, { st1 with oplist := st1.oplist ++ [EOp.vec pid] })

/-- `Scheduler.try_to_trash_pack(state)` (lines 106-129): find the first
worklist node (from the head) that belongss to a pack; if any member of that
pack still has unresolved dependencies, clear the pack (demoting its members
to scalar nodes) and report success. -/
def tryToTrashPack (packs : List PackInfo) (st : VState) : Bool × VState :=
  match st.worklist.find? (fun n => (lookupPack st.packOf n.nid).isSome) with
  | none => (false, st)
  | some node =>
    match lookupPack st.packOf node.nid with
    | none => (false, st)
    | some pid =>
      match findPack packs pid with
      | none => (false, st)
      | some pk =>
        if pk.members.any (fun m => dependsCount st.edges m.nid > 0) then
          (true, { st with packOf :=
            st.packOf.filter (fun kv => ¬ pk.members.any (fun m => m.nid == kv.1)) })
        else (false, st)

/-- Outcome of one iteration of the `walk_and_emit` loop. -/
inductive StepOut where
  | finished (st : VState)
  | step (st : VState)
  | failed
deriving Repr

/-- One iteration of `Scheduler.walk_and_emit` (lines 174-200): stop when the
worklist is exhausted; otherwise select the next candidate.  With a
candidate, give `state.emit` the first chance; if it declines and the node is
not yet emitted, mark it emitted and append its operation (imaginary nodes
have none).  Without a candidate, stop if the worklist emptied, try to trash
a pack, and otherwise fail with the fatal "cycle" error.  `failed` covers
the `AssertionError`, exhausted fuel in `next`, and exceptions from
`turn_into_vector`. -/
def walkStep (packs : List PackInfo) (st : VState) : StepOut :=
  if st.worklist.isEmpty then .finished st
  else
    match schedNext (fun n => st.emitted.contains n.nid)
        (schedDelay packs st) st.worklist with
    | none => .failed
    | some (some node, wl') =>
      let st1 : VState := { st with worklist := wl' }
      match vecEmit packs st1 node with
      | none => .failed
      | some (true, st2) => .step st2
      | some (false, st2) =>
        if st2.emitted.contains node.nid then .step st2
        else
          let st3 := markEmitted node st2
          if node.imaginary then .step st3
          else .step { st3 with oplist := st3.oplist ++ [EOp.scalar node.nid] }
    | some (none, wl') =>
      let st1 : VState := { st with worklist := wl' }
      if st1.worklist.isEmpty then .finished st1
      else
        match tryToTrashPack packs st1 with
        | (true, st2) => .step st2
        | (false, _) => .failed

/-- `Scheduler.walk_and_emit(state)`, as iteration of `walkStep` with fuel;
`none` covers both a failed step and exhausted fuel, so any `some` result is
a completed schedule. -/
def walkAndEmit (packs : List PackInfo) : Nat → VState → Option VState
  | 0, _ => none
  | fuel + 1, st =>
    match walkStep packs st with
    | .finished st' => some st'
    | .step st' => walkAndEmit packs fuel st'
    | .failed => none

end Sched

namespace VOp

/-- Modelled from the spec: the type markers of `history.py` (not among the
sources); INT and FLOAT are the datatype characters carried by
`VectorizationInfo`. -/
def INT : Char := 'i'

/-- Modelled from the spec: the FLOAT type marker of `history.py`. -/
def FLOAT : Char := 'f'

/-- Modelled from the spec: per-value `VectorizationInfo`
(`resoperation.py` is not among the sources): datatype, element byte-size,
lane count and signedness; scalars have `count = 1`.  The code accesses the
signedness both as `.signed` and (in `TypeRestrict.check`) as `.sign`; both
are modelled by the single field `signed`. -/
structure VecInfo where
  datatype : Char
  bytesize : Int
  count : Int
  signed : Bool
deriving DecidableEq, Repr

/-- The trace opcodes referenced by `schedule.py`.  `resoperation.py`
generates opcode numbers dynamically and is not among the sources, so the
opcodes are modelled as an enumeration; `num` below gives them fixed
(arbitrary) numeric values where the code uses an opcode as an integer. -/
inductive ROp where
  | int_add | int_sub | int_mul | float_add | float_mul
  | guard_true | guard_false | int_signext
  | vec_int_add | vec_int_sub | vec_int_mul | vec_int_and | vec_int_or
  | vec_int_xor | vec_int_eq | vec_int_ne
  | vec_float_add | vec_float_sub | vec_float_mul | vec_float_truediv
  | vec_float_abs | vec_float_neg
  | vec_raw_store | vec_setarrayitem_raw | vec_setarrayitem_gc
  | vec_raw_load_i | vec_raw_load_f
  | vec_getarrayitem_raw_i | vec_getarrayitem_raw_f
  | vec_getarrayitem_gc_i | vec_getarrayitem_gc_f
  | vec_guard_true | vec_guard_false
  | vec_int_signext
  | vec_cast_float_to_singlefloat | vec_cast_singlefloat_to_float
  | vec_cast_float_to_int | vec_cast_int_to_float
  | vec_float_eq | vec_float_ne | vec_int_is_true
  | vec_unpack_i | vec_unpack_f | vec_pack_i | vec_pack_f
  | vec_expand_i | vec_expand_f | vec_i | vec_f
  | const_int
deriving DecidableEq, Repr

/-- The (arbitrary, fixed) numeric value of an opcode; see `ROp`. -/
def ROp.num (r : ROp) : Int := (ROp.toCtorIdx r : Int)

/-- An operation descriptor, as consumed by the scheduler: only the element
size in bytes (`get_item_size_in_bytes`) is read here. -/
structure Descr where
  itemSize : Int
deriving DecidableEq, Repr

/-- Modelled from the spec: the distinguished-kind predicates of a trace
operation (`resoperation.py` is not among the sources): void result, guard,
typecast (with its direction and byte-sizes), primitive load/store, vector
value, constant (with its value where it is compared). -/
structure OpFlags where
  returnsVoid : Bool := false
  isGuard : Bool := false
  isTypecast : Bool := false
  castsDown : Bool := false
  castFromBytesize : Int := 0
  castToBytesize : Int := 0
  isPrimitiveStore : Bool := false
  isPrimitiveLoad : Bool := false
  isVector : Bool := false
  isConstant : Bool := false
  constVal : Int := 0
deriving DecidableEq, Repr

/-- Modelled from the spec: a trace operation.  `oid` models Python object
identity (dictionaries such as `box_to_vbox` and `expanded_map` are keyed by
it); `vectorOp` is the `vector` opcode companion; `vinfo` the forwarded
`VectorizationInfo`; `failargs` the guard fail-argument list. -/
inductive Op where
  | mk (oid : Nat) (opnum : ROp) (vectorOp : Option ROp) (vinfo : VecInfo)
      (args : List Op) (descr : Option Descr) (failargs : List Op)
      (fl : OpFlags)

/-- Object identity of an operation. -/
def Op.oid : Op → Nat
  | .mk o _ _ _ _ _ _ _ => o

/-- `op.getopnum()`. -/
def Op.opnum : Op → ROp
  | .mk _ n _ _ _ _ _ _ => n

/-- `op.vector`: the vector opcode companion, if any. -/
def Op.vectorOp : Op → Option ROp
  | .mk _ _ v _ _ _ _ _ => v

/-- `forwarded_vecinfo(op)` (lines 18-26): the `VectorizationInfo` attached
to the operation. -/
def Op.vinfo : Op → VecInfo
  | .mk _ _ _ i _ _ _ _ => i

/-- `op.getarglist()`. -/
def Op.args : Op → List Op
  | .mk _ _ _ _ a _ _ _ => a

/-- `op.getdescr()`. -/
def Op.descr : Op → Option Descr
  | .mk _ _ _ _ _ d _ _ => d

/-- `op.getfailargs()`. -/
def Op.failargs : Op → List Op
  | .mk _ _ _ _ _ _ f _ => f

/-- The kind flags of the operation. -/
def Op.fl : Op → OpFlags
  | .mk _ _ _ _ _ _ _ f => f

/-- `op.setfailargs(args)`, as a functional update. -/
def Op.setFailargs : Op → List Op → Op
  | .mk o n v i a d _ f, fa => .mk o n v i a d fa f

/-- `op.type`: the result type character, modelled as the vecinfo
datatype. -/
def Op.typ (op : Op) : Char := op.vinfo.datatype

/-- `op.returns_void()`. -/
def Op.returnsVoid (op : Op) : Bool := op.fl.returnsVoid

/-- `op.is_guard()`. -/
def Op.isGuard (op : Op) : Bool := op.fl.isGuard

/-- `op.is_typecast()`. -/
def Op.isTypecast (op : Op) : Bool := op.fl.isTypecast

/-- `op.casts_down()`. -/
def Op.castsDown (op : Op) : Bool := op.fl.castsDown

/-- `op.cast_from_bytesize()`. -/
def Op.castFromBytesize (op : Op) : Int := op.fl.castFromBytesize

/-- `op.cast_to_bytesize()`. -/
def Op.castToBytesize (op : Op) : Int := op.fl.castToBytesize

/-- Modelled from the spec: `op.cast_input_bytesize(vec_reg_size)`: the
number of input bytes consumed by a typecast whose output fills the vector
register (for a narrowing f64-to-f32 cast and a 16-byte register this is
32; for the widening boundary case of the spec it makes
`opcount_filling_vector_register` return 2). -/
def Op.castInputBytesize (op : Op) (vecRegSize : Int) : Int :=
  vecRegSize / op.castToBytesize * op.castFromBytesize

/-- `rop.is_primitive_store(op.opnum)`, modelled as an operation kind
flag. -/
def Op.isPrimitiveStore (op : Op) : Bool := op.fl.isPrimitiveStore

/-- `rop.is_primitive_load(op.opnum)`, modelled as an operation kind
flag. -/
def Op.isPrimitiveLoad (op : Op) : Bool := op.fl.isPrimitiveLoad

/-- `op.is_vector()` and `op.returns_vector()`. -/
def Op.isVector (op : Op) : Bool := op.fl.isVector

/-- `op.is_constant()`. -/
def Op.isConstant (op : Op) : Bool := op.fl.isConstant

/-- `op.numargs()`. -/
def Op.numargs (op : Op) : Nat := op.args.length

/-- Modelled from the spec: `a.same_box(b)` (`resoperation.py` is not among
the sources): constants compare by value, variables by identity. -/
def Op.sameBox (a b : Op) : Bool :=
  if a.isConstant && b.isConstant then
    a.opnum == b.opnum && a.fl.constVal == b.fl.constVal
  else a.oid == b.oid

/-- Error outcomes: the two soft conditions of `jitexc.py`, the fatal
`failnbail_transformation` (a raised `NotImplementedError`, lines 206-212)
with the message kind, and Python-level crashes (`assert`, out-of-range
indexing, missing attribute). -/
inductive BailKind where
  | typeMismatch | bytesizeMismatch | countMismatch | signMismatch
  | noOpRestrict
deriving DecidableEq, Repr

/-- See `BailKind`. -/
inductive VErr where
  | notAVectorizeableLoop
  | notAProfitableLoop
  | notImplemented (kind : BailKind)
  | assertionError
  | indexError
  | attributeError
deriving DecidableEq, Repr

/-- `op.getarg(i)`; out of range is a Python `IndexError`. -/
def Op.getargE (op : Op) (i : Nat) : Except VErr Op :=
  match op.args.get? i with
  | some a => .ok a
  | none => .error .indexError

/-- `TypeRestrict` (lines 214-270): a per-argument restriction on datatype,
element byte-size, lane count and sign.  The class constants are
`ANY_TYPE = '\x00'` and `ANY_SIZE = ANY_SIGN = ANY_COUNT = -1`,
`SIGNED = 1`, `UNSIGNED = 0`; the constructor defaults `count` to
`ANY_SIGN` and `sign` to `ANY_COUNT` (a swap in the source; both are -1, so
the defaults coincide with the intended ones). -/
structure TypeRestrict where
  type : Char := '\x00'
  bytesize : Int := -1
  count : Int := -1
  sign : Int := -1
deriving DecidableEq, Repr

/-- `TypeRestrict.ANY_TYPE`. -/
def TypeRestrict.ANY_TYPE : Char := '\x00'

/-- `TypeRestrict.ANY_SIZE`. -/
def TypeRestrict.ANY_SIZE : Int := -1

/-- `TypeRestrict.ANY_SIGN`. -/
def TypeRestrict.ANY_SIGN : Int := -1

/-- `TypeRestrict.ANY_COUNT`. -/
def TypeRestrict.ANY_COUNT : Int := -1

/-- `TypeRestrict.any_size()`. -/
def TypeRestrict.anySize (r : TypeRestrict) : Bool :=
  r.bytesize == TypeRestrict.ANY_SIZE

/-- `TypeRestrict.any_count()`. -/
def TypeRestrict.anyCount (r : TypeRestrict) : Bool :=
  r.count == TypeRestrict.ANY_COUNT

/-- `TypeRestrict.max_input_count(count)`. -/
def TypeRestrict.maxInputCount (r : TypeRestrict) (count : Int) : Int :=
  if r.count ≠ TypeRestrict.ANY_COUNT then r.count else count

/-- `TypeRestrict.check(value)` (lines 240-264), branch by branch: the
datatype/bytesize/count guards raise the fatal `failnbail_transformation`
on mismatch; the `assert` statements are the `assertionError` outcomes.
The final sign guard is translated exactly as written in the source: it
raises "sign mismatch" when `bool(self.sign) == vecinfo.sign`, i.e. when
the restriction's sign EQUALS the value's signedness. -/
def TypeRestrict.check (r : TypeRestrict) (value : Op) : Except VErr Unit :=
  let vecinfo := value.vinfo
  if vecinfo.datatype = '\x00' then .error .assertionError
  else if r.type ≠ TypeRestrict.ANY_TYPE ∧ r.type ≠ vecinfo.datatype then
    .error (.notImplemented .typeMismatch)
  else if ¬ vecinfo.bytesize > 0 then .error .assertionError
  else if ¬ r.anySize ∧ r.bytesize ≠ vecinfo.bytesize then
    .error (.notImplemented .bytesizeMismatch)
  else if ¬ vecinfo.count > 0 then .error .assertionError
  else if r.count ≠ TypeRestrict.ANY_COUNT ∧ vecinfo.count < r.count then
    .error (.notImplemented .countMismatch)
  else if r.sign ≠ TypeRestrict.ANY_SIGN ∧ (r.sign ≠ 0) = (vecinfo.signed = true) then
    .error (.notImplemented .signMismatch)
  else .ok ()

/-- The `OpRestrict` class hierarchy (lines 272-358), as a tagged kind plus
the per-argument restriction list (`None` entries skip the argument). -/
inductive OpRestrictKind where
  | generic | matchSizeTypeFirst | load | store | guard
deriving DecidableEq, Repr

/-- See `OpRestrictKind`. -/
structure OpRestrict where
  kind : OpRestrictKind
  argumentRestrictions : List (Option TypeRestrict)
deriving DecidableEq, Repr

/-- The scan opening `OpMatchSizeTypeFirst.check_operation` (lines 341-347):
`arg0 = op.getarg(0)`, then advance past constants.  An empty argument list
crashes on `getarg(0)`; if every argument is constant the loop finally calls
`getarg(numargs)` and crashes with `IndexError`. -/
def firstNonConstant (argList : List Op) : Except VErr Op :=
  match argList.find? (fun a => ¬ a.isConstant) with
  | some a => .ok a
  | none => .error .indexError

/-- `check_operation(state, pack, op)`: a no-op for the base class;
`OpMatchSizeTypeFirst` (lines 339-358) requires every non-constant argument
to match the first non-constant argument's byte-size and datatype, raising
`NotAVectorizeableLoop` otherwise. -/
def OpRestrict.checkOperation (r : OpRestrict) (op : Op) : Except VErr Unit :=
  match r.kind with
  | .matchSizeTypeFirst => do
    let arg0 ← firstNonConstant op.args
    let bytesize := arg0.vinfo.bytesize
    let datatype := arg0.vinfo.datatype
    op.args.foldlM (fun _ arg =>
      if arg.isConstant then .ok ()
      else if arg.vinfo.bytesize ≠ bytesize then .error .notAVectorizeableLoop
      else if arg.vinfo.datatype ≠ datatype then .error .notAVectorizeableLoop
      else .ok ()) ()
  | _ => .ok ()

/-- `crop_to_size(op, index)`: the restricted byte-size for the base class
(lines 289-292), the descriptor item size for `StoreRestrict`
(lines 328-332). -/
def OpRestrict.cropToSize (r : OpRestrict) (op : Op) (index : Nat) :
    Except VErr Int :=
  match r.kind with
  | .store =>
    match op.descr with
    | some d => .ok d.itemSize
    | none => .error .attributeError
  | _ =>
    match r.argumentRestrictions.get? index with
    | some (some restrict) => .ok restrict.bytesize
    | some none => .error .attributeError
    | none => .error .indexError

/-- `must_crop_vector(op, index)` (lines 282-287 and 323-326). -/
def OpRestrict.mustCropVector (r : OpRestrict) (op : Op) (index : Nat) :
    Except VErr Bool :=
  match r.kind with
  | .store => do
    let arg ← op.getargE index
    let bytesize := arg.vinfo.bytesize
    let crop ← r.cropToSize op index
    .ok (crop ≠ bytesize)
  | _ =>
    match r.argumentRestrictions.get? index with
    | some (some restrict) => do
      let arg ← op.getargE index
      let size := arg.vinfo.bytesize
      let newsize ← r.cropToSize op index
      .ok (¬ restrict.anySize ∧ newsize ≠ size)
    | some none => .error .attributeError
    | none => .error .indexError

/-- `opcount_filling_vector_register(op, vec_reg_size)` for each class
(lines 294-305, 307-311, 313-317, 334-337). -/
def OpRestrict.opcountFillingVectorRegister (r : OpRestrict) (op : Op)
    (vecRegSize : Int) : Except VErr Int :=
  match r.kind with
  | .guard => do
    let arg ← op.getargE 0
    .ok (vecRegSize / arg.vinfo.bytesize)
  | .load =>
    if ¬ op.isPrimitiveLoad then .error .assertionError
    else match op.descr with
      | some d => .ok (vecRegSize / d.itemSize)
      | none => .error .attributeError
  | .store =>
    if ¬ op.isPrimitiveStore then .error .assertionError
    else match op.descr with
      | some d => .ok (vecRegSize / d.itemSize)
      | none => .error .attributeError
  | _ =>
    if op.isTypecast then
      if op.castsDown then
        .ok (op.castInputBytesize vecRegSize / op.castFromBytesize)
      else
        .ok (vecRegSize / op.castToBytesize)
    else .ok (vecRegSize / op.vinfo.bytesize)

/-- `trans.TR_ANY`. -/
def TR_ANY : TypeRestrict := {}

/-- `trans.TR_ANY_FLOAT`. -/
def TR_ANY_FLOAT : TypeRestrict := { type := FLOAT }

/-- `trans.TR_ANY_INTEGER`. -/
def TR_ANY_INTEGER : TypeRestrict := { type := INT }

/-- `trans.TR_FLOAT_2`. -/
def TR_FLOAT_2 : TypeRestrict := { type := FLOAT, bytesize := 4, count := 2 }

/-- `trans.TR_DOUBLE_2`. -/
def TR_DOUBLE_2 : TypeRestrict := { type := FLOAT, bytesize := 8, count := 2 }

/-- `trans.TR_INT32_2`. -/
def TR_INT32_2 : TypeRestrict := { type := INT, bytesize := 4, count := 2 }

/-- `trans.OR_MSTF_I`. -/
def OR_MSTF_I : OpRestrict :=
  ⟨.matchSizeTypeFirst, [some TR_ANY_INTEGER, some TR_ANY_INTEGER]⟩

/-- `trans.OR_MSTF_F`. -/
def OR_MSTF_F : OpRestrict :=
  ⟨.matchSizeTypeFirst, [some TR_ANY_FLOAT, some TR_ANY_FLOAT]⟩

/-- `trans.STORE_RESTRICT`. -/
def STORE_RESTRICT : OpRestrict := ⟨.store, [none, none, some TR_ANY]⟩

/-- `trans.LOAD_RESTRICT`. -/
def LOAD_RESTRICT : OpRestrict := ⟨.load, []⟩

/-- `trans.GUARD_RESTRICT`. -/
def GUARD_RESTRICT : OpRestrict := ⟨.guard, [some TR_ANY_INTEGER]⟩

/-- `trans.MAPPING` (lines 376-419): the per-vector-opcode restriction
table. -/
def transMapping : ROp → Option OpRestrict
  | .vec_int_add | .vec_int_sub | .vec_int_mul | .vec_int_and
  | .vec_int_or | .vec_int_xor | .vec_int_eq | .vec_int_ne => some OR_MSTF_I
  | .vec_float_add | .vec_float_sub | .vec_float_mul
  | .vec_float_truediv => some OR_MSTF_F
  | .vec_float_abs | .vec_float_neg => some ⟨.generic, [some TR_ANY_FLOAT]⟩
  | .vec_raw_store | .vec_setarrayitem_raw
  | .vec_setarrayitem_gc => some STORE_RESTRICT
  | .vec_raw_load_i | .vec_raw_load_f | .vec_getarrayitem_raw_i
  | .vec_getarrayitem_raw_f | .vec_getarrayitem_gc_i
  | .vec_getarrayitem_gc_f => some LOAD_RESTRICT
  | .vec_guard_true | .vec_guard_false => some GUARD_RESTRICT
  | .vec_int_signext => some ⟨.generic, [some TR_ANY_INTEGER]⟩
  | .vec_cast_float_to_singlefloat => some ⟨.generic, [some TR_DOUBLE_2]⟩
  | .vec_cast_singlefloat_to_float => some ⟨.generic, [some TR_INT32_2]⟩
  | .vec_cast_float_to_int => some ⟨.generic, [some TR_DOUBLE_2]⟩
  | .vec_cast_int_to_float => some ⟨.generic, [some TR_INT32_2]⟩
  | .vec_float_eq => some ⟨.generic, [some TR_ANY_FLOAT, some TR_ANY_FLOAT]⟩
  | .vec_float_ne => some ⟨.generic, [some TR_ANY_FLOAT, some TR_ANY_FLOAT]⟩
  | .vec_int_is_true =>
    some ⟨.generic, [some TR_ANY_INTEGER, some TR_ANY_INTEGER]⟩
  | _ => none

/-- `trans.get(op)` (lines 421-426): look the operation's `vector` companion
up in the table; a missing entry is the fatal `failnbail_transformation`. -/
def transGet (op : Op) : Except VErr OpRestrict :=
  match op.vectorOp.bind transMapping with
  | some r => .ok r
  | none => .error (.notImplemented .noOpRestrict)

/-- Modelled from the spec: a dependency-graph node as a pack member holds
an operation; `nid` models the node's object identity (the `is` comparison
of `rightmost_match_leftmost` and the membership bookkeeping of `clear` /
`update_pack_of_nodes`). -/
structure PNode where
  nid : Nat
  op : Op

/-- `Pack` / `AccumPack` (lines 863-1099): the member nodes in order;
`accum` distinguishes `AccumPack` (`is_accumulating`), which adds the
reduction `operator` and the accumulator argument `position`.  A plain
`Pack` carries the class-attribute defaults `operator = '\x00'`,
`position = -1`. -/
structure OPack where
  pid : Nat
  operations : List PNode
  accum : Bool := false
  operator : Char := '\x00'
  position : Int := -1

/-- `Pack.numops()`. -/
def OPack.numops (p : OPack) : Int := (p.operations.length : Int)

/-- `Pack.leftmost()` (lines 882-886); an empty pack raises `IndexError`. -/
def OPack.leftmostE (p : OPack) : Except VErr Op :=
  match p.operations.head? with
  | some n => .ok n.op
  | none => .error .indexError

/-- `Pack.rightmost()` (lines 888-892). -/
def OPack.rightmostE (p : OPack) : Except VErr Op :=
  match p.operations.getLast? with
  | some n => .ok n.op
  | none => .error .indexError

/-- `Pack.opnum()` (lines 958-960). -/
def OPack.opnumE (p : OPack) : Except VErr ROp :=
  match p.operations.head? with
  | some n => .ok n.op.opnum
  | none => .error .assertionError

/-- `Pack.is_accumulating()` (lines 1044-1045 and 1095-1096). -/
def OPack.isAccumulating (p : OPack) : Bool := p.accum

/-- `Pack.pack_load(vec_reg_size)` (lines 915-950), translated statement by
statement.  `leftmost()` is evaluated first, so an empty pack raises
`IndexError` there; the subsequent `if self.numops() == 0: return -1`
branch is kept although it is unreachable. -/
def OPack.packLoad (p : OPack) (vecRegSize : Int) : Except VErr Int := do
  let left ← p.leftmostE
  if left.returnsVoid then
    if left.isPrimitiveStore then
      match left.descr with
      | some descr => .ok (descr.itemSize * p.numops - vecRegSize)
      | none => .error .attributeError
    else if left.isGuard ∧
        (left.opnum = ROp.guard_true ∨ left.opnum = ROp.guard_false) then do
      let arg0 ← left.getargE 0
      .ok (arg0.vinfo.bytesize * p.numops - vecRegSize)
    else .error .assertionError
  else if p.numops = 0 then .ok (-1)
  else if left.isTypecast then
    if left.castsDown then
      .ok (left.castFromBytesize * p.numops - left.castInputBytesize vecRegSize)
    else
      .ok (left.castToBytesize * p.numops - vecRegSize)
  else
    .ok (left.vinfo.bytesize * p.numops - vecRegSize)

/-- `Pack.FULL`. -/
def OPack.FULL : Int := 0

/-- `Pack.is_full(vec_reg_size)` (lines 952-956); an error in `pack_load`
propagates. -/
def OPack.isFullE (p : OPack) (vecRegSize : Int) : Except VErr Bool :=
  (p.packLoad vecRegSize).map (fun l => l == OPack.FULL)

/-- `Pack.opcount_filling_vector_register(vec_reg_size)`
(lines 999-1002). -/
def OPack.opcountFillingVectorRegister (p : OPack) (vecRegSize : Int) :
    Except VErr Int := do
  let left ← p.leftmostE
  let oprestrict ← transGet left
  oprestrict.opcountFillingVectorRegister left vecRegSize

/-- `Pack.slice_operations(vec_reg_size)` (lines 1004-1011). -/
def OPack.sliceOperations (p : OPack) (vecRegSize : Int) :
    Except VErr (List PNode × List PNode) := do
  let count ← p.opcountFillingVectorRegister vecRegSize
  if ¬ count > 0 then .error .assertionError
  else
    let newoplist := p.operations.drop count.toNat
    let oplist := p.operations.take count.toNat
    if newoplist.length = 0 then .error .assertionError
    else .ok (oplist, newoplist)

/-- `Pack.clone(oplist)` (lines 1047-1048 and 1098-1099): a fresh `Pack`
(or `AccumPack` with the same operator and position) over the given nodes;
`pid` is the fresh object's identity. -/
def OPack.clone (p : OPack) (ops : List PNode) (pid : Nat) : OPack :=
  if p.accum then
    { pid := pid, operations := ops, accum := true,
      operator := p.operator, position := p.position }
  else { pid := pid, operations := ops }

/-- `Pack.rightmost_match_leftmost(other)` (lines 1013-1024):
`operations[-1]` and `operations[0]` are fetched first (an empty pack
raises `IndexError`); when `self` is accumulating, a non-accumulating
`other` or a differing accumulator position returns false; otherwise the
result is the identity comparison `rightmost is leftmost`. -/
def OPack.rightmostMatchLeftmost (self other : OPack) : Except VErr Bool :=
  match self.operations.getLast?, other.operations.head? with
  | some rightmost, some leftmost =>
    if self.isAccumulating then
      if ¬ other.isAccumulating then .ok false
      else if self.position ≠ other.position then .ok false
      else .ok (rightmost.nid == leftmost.nid)
  else .ok (rightmost.nid == leftmost.nid)
  | _, _ => .error .indexError

/-- The mutable node-membership state that `Pack.clear` and
`Pack.update_pack_of_nodes` act on (`node.pack`, `node.pack_position`),
keyed by node identity and holding (pack identity, position), plus the
`packlist` that `split` appends to and a supply of fresh pack
identities. -/
structure SplitSt where
  packlist : List OPack
  memb : List (Nat × Nat × Int)
  nextPid : Nat

/-- Assign `node.pack`/`node.pack_position` for one node (dictionary-style
update: replace if present, else append). -/
def membSet (m : List (Nat × Nat × Int)) (nid : Nat) (v : Nat × Int) :
    List (Nat × Nat × Int) :=
  if m.any (fun kv => kv.1 == nid) then
    m.map (fun kv => if kv.1 == nid then (nid, v) else kv)
  else m ++ [(nid, v)]

/-- `node.pack` / `node.pack_position` of a node, if it belongs to a
pack. -/
def membGet (m : List (Nat × Nat × Int)) (nid : Nat) : Option (Nat × Int) :=
  (m.find? (fun kv => kv.1 == nid)).map (·.2)

/-- `Pack.clear()` (lines 962-965): reset the membership of every member
node. -/
def clearPack (p : OPack) (m : List (Nat × Nat × Int)) :
    List (Nat × Nat × Int) :=
  m.filter (fun kv => ¬ p.operations.any (fun n => n.nid == kv.1))

/-- `Pack.update_pack_of_nodes()` (lines 967-970): point every member node
at this pack with its position. -/
def updatePackOfNodes (p : OPack) (m : List (Nat × Nat × Int)) :
    List (Nat × Nat × Int) :=
  (p.operations.enum.foldl (fun acc ni => membSet acc ni.2.nid (p.pid, (ni.1 : Int))) m)

/-- The body of the `while` loop of `Pack.split(packlist, vec_reg_size)`
(lines 972-997), with fuel (each pass hands a strictly shorter operation
list to the next, see `sliceOperations`; the caller supplies sufficient
fuel).  While the pack overflows: clear it, keep the first
`opcount_filling_vector_register` nodes, re-point them, assert fullness for
non-typecasts, clone the remainder into a fresh pack; a remainder at least
FULL is appended to `packlist` and split further, a smaller remainder is
cleared and dropped, ending the loop. -/
def splitLoop (vecRegSize : Int) :
    Nat → OPack → SplitSt → Option (Except VErr (OPack × SplitSt))
  | 0, _, _ => none
  | fuel + 1, pack, st =>
    match pack.packLoad vecRegSize with
    | .error e => some (.error e)
    | .ok load =>
      if load > OPack.FULL then
        let st1 : SplitSt := { st with memb := clearPack pack st.memb }
        match pack.sliceOperations vecRegSize with
        | .error e => some (.error e)
        | .ok (oplist, newoplist) =>
          let pack1 : OPack := { pack with operations := oplist }
          let st2 : SplitSt :=
            { st1 with memb := updatePackOfNodes pack1 st1.memb }
          match pack1.leftmostE with
          | .error e => some (.error e)
          | .ok left =>
            match (if ¬ left.isTypecast then
                     (pack1.isFullE vecRegSize).bind (fun full =>
                       if full then .ok () else .error .assertionError)
                   else .ok ()) with
            | .error e => some (.error e)
            | .ok _ =>
              let newpack := pack1.clone newoplist st2.nextPid
              let st3 : SplitSt :=
                { st2 with nextPid := st2.nextPid + 1,
                           memb := updatePackOfNodes newpack st2.memb }
              match newpack.packLoad vecRegSize with
              | .error e => some (.error e)
              | .ok newload =>
                if newload ≥ OPack.FULL then
                  let st4 : SplitSt :=
                    { st3 with memb := updatePackOfNodes pack1 st3.memb,
                               packlist := st3.packlist ++ [newpack] }
                  splitLoop vecRegSize fuel newpack st4
                else
                  let st4 : SplitSt :=
                    { st3 with memb := clearPack newpack st3.memb }
                  some (.ok (pack1, st4))
      else some (.ok (pack, st))

/-- `Pack.split(packlist, vec_reg_size)` (lines 972-997): run the loop and
apply the trailing `pack.update_pack_of_nodes()`.  The returned pack is the
(mutated) receiver object when the loop ends by `break` or by its
condition, or the last cloned pack otherwise. -/
def OPack.split (pack : OPack) (st : SplitSt) (vecRegSize : Int) :
    Option (Except VErr (OPack × SplitSt)) :=
  match splitLoop vecRegSize (pack.operations.length + 1) pack st with
  | some (.ok (p, s)) =>
    some (.ok (p, { s with memb := updatePackOfNodes p s.memb }))
  | r => r

/-- Modelled from the spec: the cost-model interface (`CostModel` lives
outside the sources); calls are recorded as events. -/
inductive CostEvent where
  | packSavings (numops : Int)
  | castInt (size newsize count : Int)
  | vectorUnpack (srcOid : Nat) (index count : Int)
  | vectorPack (srcOid : Nat) (index count : Int)
deriving DecidableEq, Repr

/-- The mutable parts of `VecScheduleState` (lines 685-861) reached from
`turn_into_vector`: the emitted and invariant operation lists, the
scalar-to-(lane, vector) map `box_to_vbox` (keyed by object identity), the
expansion memo `expanded_map`, the loop input arguments, the `seen` set,
the `accumulation` keys, the renamer's pending renames, the cost-model log,
and a supply of fresh object identities for newly created operations. -/
structure VecSState where
  nextOid : Nat
  oplist : List Op
  invariantOplist : List Op
  invariantVectorVars : List Op
  boxToVbox : List (Nat × Int × Op)
  expandedMap : List (Nat × List (Op × Int))
  inputargs : List Nat
  seen : List Nat
  accumulation : List Nat
  costlog : List CostEvent
  renames : List (Nat × Nat)

/-- The state-and-exception monad the transformation functions run in:
Python mutations are threaded, a raised exception keeps the mutations made
so far. -/
def VM (α : Type) : Type := VecSState → Except VErr α × VecSState

instance : Monad VM where
  pure a := fun s => (.ok a, s)
  bind m f := fun s =>
    match m s with
    | (.ok a, s') => f a s'
    | (.error e, s') => (.error e, s')

/-- Raise an exception, keeping the state. -/
def VM.throw (e : VErr) : VM α := fun s => (.error e, s)

/-- Read the whole state. -/
def VM.getSt : VM VecSState := fun s => (.ok s, s)

/-- Apply a state mutation. -/
def VM.modifySt (f : VecSState → VecSState) : VM Unit := fun s => (.ok (), f s)

/-- Run an effect-free computation that may raise. -/
def VM.ofExcept (e : Except VErr α) : VM α := fun s => (e, s)

/-- Allocate a fresh object identity for a newly created operation. -/
def VM.fresh : VM Nat :=
  fun s => (.ok s.nextOid, { s with nextOid := s.nextOid + 1 })

/-- Record a cost-model call. -/
def recordCost (e : CostEvent) : VM Unit :=
  VM.modifySt (fun s => { s with costlog := s.costlog ++ [e] })

/-- Append to `state.oplist`. -/
def appendOplist (op : Op) : VM Unit :=
  VM.modifySt (fun s => { s with oplist := s.oplist ++ [op] })

/-- Modelled from the spec: `ConstInt(v)` — a fresh constant-int box. -/
def mkConstInt (oid : Nat) (v : Int) : Op :=
  Op.mk oid .const_int none ⟨INT, 8, 1, true⟩ [] none []
    { isConstant := true, constVal := v }

/-- Modelled from the spec: `OpHelpers.create_vec_unpack(type, args,
bytesize, signed, count)`: extract `count` lanes; a single-lane unpack is a
scalar value (spec: scalars have `count = 1`). -/
def createVecUnpack (oid : Nat) (typ : Char) (argList : List Op)
    (bytesize : Int) (signed : Bool) (count : Int) : Op :=
  Op.mk oid (if typ = FLOAT then .vec_unpack_f else .vec_unpack_i) none
    ⟨typ, bytesize, count, signed⟩ argList none []
    { isVector := count > 1 }

/-- Modelled from the spec: `OpHelpers.create_vec_pack(type, args, bytesize,
signed, count)`: insert a source's lanes into a destination vector. -/
def createVecPack (oid : Nat) (typ : Char) (argList : List Op)
    (bytesize : Int) (signed : Bool) (count : Int) : Op :=
  Op.mk oid (if typ = FLOAT then .vec_pack_f else .vec_pack_i) none
    ⟨typ, bytesize, count, signed⟩ argList none []
    { isVector := count > 1 }

/-- Modelled from the spec: `OpHelpers.create_vec_expand(arg, bytesize,
signed, count)`: broadcast a scalar into all lanes. -/
def createVecExpand (oid : Nat) (arg : Op) (bytesize : Int) (signed : Bool)
    (count : Int) : Op :=
  Op.mk oid (if arg.typ = FLOAT then .vec_expand_f else .vec_expand_i) none
    ⟨arg.typ, bytesize, count, signed⟩ [arg] none []
    { isVector := count > 1 }

/-- Modelled from the spec: `OpHelpers.create_vec(type, bytesize, signed,
count)`: materialize an empty vector box. -/
def createVec (oid : Nat) (typ : Char) (bytesize : Int) (signed : Bool)
    (count : Int) : Op :=
  Op.mk oid (if typ = FLOAT then .vec_f else .vec_i) none
    ⟨typ, bytesize, count, signed⟩ [] none []
    { isVector := count > 1 }

/-- Modelled from the spec: `VecOperation(vecopnum, args, baseop, count,
descr)`: the vector companion operation, inheriting datatype, byte-size,
signedness, guard-ness and void-ness from the base operation, with the
pack's opcount as `count`. -/
def mkVecOperation (oid : Nat) (vopnum : ROp) (argList : List Op)
    (baseop : Op) (count : Int) (descr : Option Descr) : Op :=
  Op.mk oid vopnum none
    ⟨baseop.vinfo.datatype, baseop.vinfo.bytesize, count, baseop.vinfo.signed⟩
    argList descr []
    { isVector := count > 1, isGuard := baseop.isGuard,
      returnsVoid := baseop.returnsVoid }

/-- Modelled from the spec: `VecOperationNew(opnum, args, type, bytesize,
signed, count)` (used for the `VEC_INT_SIGNEXT` crop). -/
def mkVecOperationNew (oid : Nat) (vopnum : ROp) (argList : List Op)
    (typ : Char) (bytesize : Int) (signed : Bool) (count : Int) : Op :=
  Op.mk oid vopnum none ⟨typ, bytesize, count, signed⟩ argList none []
    { isVector := count > 1 }

/-- `VecScheduleState.getvector_of_box(arg)` (lines 844-845). -/
def getvectorOfBox (arg : Op) : VM (Int × Option Op) := fun s =>
  match s.boxToVbox.find? (fun kv => kv.1 == arg.oid) with
  | some kv => (.ok (kv.2.1, some kv.2.2), s)
  | none => (.ok (-1, none), s)

/-- `VecScheduleState.setvector_of_box(var, off, vector)` (lines 847-853),
with the asserts. -/
def setvectorOfBox (var : Op) (off : Int) (vector : Op) : VM Unit := do
  if var.returnsVoid then VM.throw .assertionError
  else
    let vecinfo := vector.vinfo
    if ¬ off < vecinfo.count then VM.throw .assertionError
    else if var.isVector then VM.throw .assertionError
    else VM.modifySt (fun s =>
      { s with boxToVbox :=
          if s.boxToVbox.any (fun kv => kv.1 == var.oid) then
            s.boxToVbox.map (fun kv =>
              if kv.1 == var.oid then (var.oid, off, vector) else kv)
          else s.boxToVbox ++ [(var.oid, off, vector)] })

/-- `VecScheduleState._prevent_signext(outsize, insize)` (lines 839-842):
raise the soft `NotAProfitableLoop` when the sizes differ and either is
below 4 bytes. -/
def preventSignext (outsize insize : Int) : Except VErr Unit :=
  if insize ≠ outsize then
    if outsize < 4 ∨ insize < 4 then .error .notAProfitableLoop
    else .ok ()
  else .ok ()

/-- `unpack_from_vector(state, arg, index, count)` (lines 577-587): assert,
build `[arg, ConstInt(index), ConstInt(count)]`, create the `VEC_UNPACK`,
record the cost, append it and return it. -/
def unpackFromVector (arg : Op) (index count : Int) : VM Op := do
  if ¬ count > 0 then VM.throw .assertionError
  else
    let vecinfo := arg.vinfo
    if ¬ index + count ≤ vecinfo.count then VM.throw .assertionError
    else do
      let o1 ← VM.fresh
      let o2 ← VM.fresh
      let o3 ← VM.fresh
      let argList := [arg, mkConstInt o1 index, mkConstInt o2 count]
      let vecop := createVecUnpack o3 arg.typ argList vecinfo.bytesize
        vecinfo.signed count
      recordCost (.vectorUnpack arg.oid index count)
      appendOplist vecop
      pure vecop

/-- `pack_into_vector(state, tgt, tidx, src, sidx, scount)`
(lines 589-603); the debug re-check `_check_vec_pack` runs only
untranslated and is omitted. -/
def packIntoVector (tgt : Op) (tidx : Int) (src : Op) (sidx scount : Int) :
    VM Op := do
  if sidx ≠ 0 then VM.throw .assertionError
  else do
    let vecinfo := tgt.vinfo
    let newcount := vecinfo.count + scount
    let o1 ← VM.fresh
    let o2 ← VM.fresh
    let o3 ← VM.fresh
    let argList := [tgt, src, mkConstInt o1 tidx, mkConstInt o2 scount]
    let vecop := createVecPack o3 tgt.typ argList vecinfo.bytesize
      vecinfo.signed newcount
    appendOplist vecop
    recordCost (.vectorPack src.oid sidx scount)
    pure vecop

/-- `gather(state, vectors, count)` (lines 531-542): chain
`pack_into_vector` over the scattered vector boxes while the lanes fit. -/
def gather (vectors : List (Int × Op)) (count : Int) : VM Op :=
  match vectors with
  | [] => VM.throw .indexError
  | (_, arg0) :: rest =>
    rest.foldlM (fun arg v => do
      let vecinfo := arg.vinfo
      let newvecinfo := v.2.vinfo
      if vecinfo.count + newvecinfo.count ≤ count then
        packIntoVector arg vecinfo.count v.2 v.1 newvecinfo.count
      else pure arg) arg0

/-- `Pack.argument_vectors(state, pack, index, pack_args_index)`
(lines 1026-1034): collect the distinct (by identity, consecutive) vector
boxes the per-lane arguments currently live in. -/
def argumentVectors (packArgsIndex : List Op) : VM (List (Int × Op)) := do
  let res ← packArgsIndex.foldlM (fun acc arg => do
    let (pos, vecop?) ← getvectorOfBox arg
    match vecop? with
    | some vecop =>
      match acc.2 with
      | some last =>
        if vecop.oid ≠ last.oid then
          pure (acc.1 ++ [(pos, vecop)], some vecop)
        else pure acc
      | none => pure (acc.1 ++ [(pos, vecop)], some vecop)
    | none => pure acc) (([] : List (Int × Op)), (none : Option Op))
  pure res.1

/-- The enumerated loop of `remember_args_in_vector` (lines 857-861). -/
def rememberGo (box : Op) : List Op → Int → VM Unit
  | [], _ => pure ()
  | arg :: rest, i => do
    let vecinfo := arg.vinfo
    if i ≥ vecinfo.count then pure ()
    else do
      setvectorOfBox arg i box
      rememberGo box rest (i + 1)

/-- `VecScheduleState.remember_args_in_vector(pack, index, box)`
(lines 855-861): collect each member's argument at `index` and record it as
living in lane `i` of the box (see `rememberGo` for the enumerated loop,
which stops at the box's lane count). -/
def rememberArgsInVector (pack : OPack) (index : Nat) (box : Op) :
    VM Unit := do
  let arguments ← pack.operations.mapM (fun n => VM.ofExcept (n.op.getargE index))
  rememberGo box arguments 0

/-- `VecScheduleState.expand(args, vecop)` (lines 699-706): append
`(vecop, index)` to each argument's `expanded_map` entry; a single argument
records index -1. -/
def stateExpand (argList : List Op) (vecop : Op) : VM Unit :=
  VM.modifySt (fun s =>
    let start : Int := if argList.length = 1 then -1 else 0
    (argList.foldl (fun acc arg =>
      let (m, index) := acc
      let m' :=
        if m.any (fun kv => kv.1 == arg.oid) then
          m.map (fun kv =>
            if kv.1 == arg.oid then (kv.1, kv.2 ++ [(vecop, index)]) else kv)
        else m ++ [(arg.oid, [(vecop, index)])]
      (m', index + 1)) (s.expandedMap, start)) |>
    (fun r => { s with expandedMap := r.1 }))

/-- `expanded_map.get(key, [])`. -/
def emLookup (s : VecSState) (oid : Nat) : List (Op × Int) :=
  ((s.expandedMap.find? (fun kv => kv.1 == oid)).map (·.2)).getD []

/-- `possible.get(vecop, True)` in `find_expanded`. -/
def possGet (poss : List (Nat × Op × Bool)) (oid : Nat) : Bool :=
  ((poss.find? (fun kv => kv.1 == oid)).map (fun kv => kv.2.2)).getD true

/-- `possible[vecop] = b` in `find_expanded` (dictionary update preserving
insertion order). -/
def possSet (poss : List (Nat × Op × Bool)) (vecop : Op) (b : Bool) :
    List (Nat × Op × Bool) :=
  if poss.any (fun kv => kv.1 == vecop.oid) then
    poss.map (fun kv => if kv.1 == vecop.oid then (kv.1, vecop, b) else kv)
  else poss ++ [(vecop.oid, vecop, b)]

/-- The enumerated loop of `VecScheduleState.find_expanded` for more than
one argument (lines 716-731): per argument position, the candidate
expansions at that position invalidate every remembered candidate that is
not among them and are remembered as valid; an empty `possible` dictionary
aborts with no result. -/
def feGo (s : VecSState) :
    List Op → Int → List (Nat × Op × Bool) → Option (List (Nat × Op × Bool))
  | [], _, possible => some possible
  | arg :: rest, i, possible =>
    let expansions := emLookup s arg.oid
    let candidates := (expansions.filter (fun vi =>
      vi.2 == i && possGet possible vi.1.oid)).map (·.1)
    let possible := candidates.foldl (fun poss vecop =>
      let poss := poss.map (fun kv =>
        if candidates.any (fun c => c.oid == kv.1) then kv
        else (kv.1, kv.2.1, false))
      possSet poss vecop true) possible
    if possible.isEmpty then none
    else feGo s rest (i + 1) possible

/-- `VecScheduleState.find_expanded(args)` (lines 708-735): for a single
argument, look for an expansion recorded with index -1; otherwise run
`feGo` and return the first still-valid candidate in insertion order. -/
def findExpanded (s : VecSState) (argList : List Op) : Option Op :=
  match argList with
  | [a] =>
    ((emLookup s a.oid).find? (fun vi => vi.2 == -1)).map (·.1)
  | _ =>
    match feGo s argList 0 [] with
    | none => none
    | some possible =>
      (possible.find? (fun kv => kv.2.2)).map (fun kv => kv.2.1)

/-- The member scan of `expandAllSame`. -/
def expandAllSameGo (arg : Op) (index : Nat) : List PNode → Except VErr Bool
  | [] => .ok true
  | n :: rest => do
    let a ← n.op.getargE index
    if ¬ arg.sameBox a then .ok false
    else expandAllSameGo arg index rest

/-- The homogeneity scan opening `expand` (lines 640-644): whether every
member's argument at `index` is `same_box` as `arg` (the `for ... else`
construct of the source; a member whose argument is missing raises
`IndexError`). -/
def expandAllSame (arg : Op) (pack : OPack) (index : Nat) :
    Except VErr Bool :=
  expandAllSameGo arg index pack.operations

/-- Append a glue operation to the invariant prefix or inline, per the
`ops` aliasing of `expand` (lines 633-638). -/
def expandAppendOp (invariant : Bool) (op : Op) : VM Unit :=
  VM.modifySt (fun s =>
    if invariant then { s with invariantOplist := s.invariantOplist ++ [op] }
    else { s with oplist := s.oplist ++ [op] })

/-- Append to `invariant_vector_vars` when the expansion is invariant
(`variables` aliasing of `expand`). -/
def expandAppendVar (invariant : Bool) (op : Op) : VM Unit :=
  VM.modifySt (fun s =>
    if invariant then
      { s with invariantVectorVars := s.invariantVectorVars ++ [op] }
    else s)

/-- The per-member `VEC_PACK` chain of the heterogeneous path of `expand`
(lines 671-678); `i` is the enumeration index (`ConstInt(i)`). -/
def expandPackChain (invariant : Bool) (index : Nat) :
    List PNode → Int → Op → VM Op
  | [], _, vecop => pure vecop
  | n :: rest, i, vecop => do
    let arg ← VM.ofExcept (n.op.getargE index)
    let o1 ← VM.fresh
    let o2 ← VM.fresh
    let o3 ← VM.fresh
    let vecinfo := vecop.vinfo
    let arguments := [vecop, arg, mkConstInt o1 i, mkConstInt o2 1]
    let vecop' := createVecPack o3 arg.typ arguments vecinfo.bytesize
      vecinfo.signed (vecinfo.count + 1)
    expandAppendOp invariant vecop'
    expandPackChain invariant index rest (i + 1) vecop'

/-- `args[i]` with the Python `IndexError`. -/
def listGetE (argList : List Op) (i : Nat) : Except VErr Op :=
  match argList.get? i with
  | some a => .ok a
  | none => .error .indexError

/-- `expand(state, pack, args, arg, index)` (lines 625-683): broadcast a
scalar into a vector box.  The expansion is placed in the invariant prefix
when the argument is a constant or a loop input, inline otherwise.  If all
pack members share the argument, reuse or create a single `VEC_EXPAND`;
otherwise reuse a memoized combination or materialize an empty vector
(`create_vec`, whose `count` argument is the source's `pack.opnum()`,
an opcode number) and fill it lane by lane with `VEC_PACK` operations.
Returns the updated argument list. -/
def expand (pack : OPack) (argList : List Op) (arg : Op) (index : Nat) :
    VM (List Op) := do
  let _ ← VM.ofExcept pack.leftmostE
  let s ← VM.getSt
  let invariant := arg.isConstant || s.inputargs.contains arg.oid
  let allSame ← VM.ofExcept (expandAllSame arg pack index)
  if allSame then
    match findExpanded s [arg] with
    | some vecop => pure (argList.set index vecop)
    | none => do
      let left ← VM.ofExcept pack.leftmostE
      let vecinfo := left.vinfo
      let o ← VM.fresh
      let vecop := createVecExpand o arg vecinfo.bytesize vecinfo.signed
        pack.numops
      expandAppendOp invariant vecop
      expandAppendVar invariant vecop
      stateExpand [arg] vecop
      pure (argList.set index vecop)
  else do
    let expandargs ← pack.operations.mapM
      (fun n => VM.ofExcept (n.op.getargE index))
    match findExpanded s expandargs with
    | some vecop => pure (argList.set index vecop)
    | none => do
      let argVecinfo := arg.vinfo
      let opn ← VM.ofExcept pack.opnumE
      let o ← VM.fresh
      let vecop := createVec o arg.typ argVecinfo.bytesize argVecinfo.signed
        (ROp.num opn)
      expandAppendOp invariant vecop
      let vecop ← expandPackChain invariant index pack.operations 0 vecop
      stateExpand expandargs vecop
      expandAppendVar invariant vecop
      pure (argList.set index vecop)

/-- `crop_vector(state, oprestrict, restrict, pack, args, i)`
(lines 503-519): when the argument's element size mismatches the
restriction, emit a `VEC_INT_SIGNEXT` to the restricted size (int path
only; `_prevent_signext` rejects sub-4-byte sizes) and substitute it.
The `restrict` parameter is unused in the source body as well. -/
def cropVectorFn (oprestrict : OpRestrict) (restrict : TypeRestrict)
    (pack : OPack) (argList : List Op) (i : Nat) : VM (List Op) := do
  let _ := restrict
  let arg ← VM.ofExcept (listGetE argList i)
  let vecinfo := arg.vinfo
  let size := vecinfo.bytesize
  let left ← VM.ofExcept pack.leftmostE
  let mc ← VM.ofExcept (oprestrict.mustCropVector left i)
  if mc then do
    let newsize ← VM.ofExcept (oprestrict.cropToSize left i)
    if arg.typ ≠ INT then VM.throw .assertionError
    else do
      VM.ofExcept (preventSignext newsize size)
      let count := vecinfo.count
      let o1 ← VM.fresh
      let o2 ← VM.fresh
      let vecop := mkVecOperationNew o2 .vec_int_signext
        [arg, mkConstInt o1 newsize] INT newsize vecinfo.signed count
      appendOplist vecop
      recordCost (.castInt size newsize count)
      pure (argList.set i vecop)
  else pure argList

/-- `position_values(state, restrict, pack, args, index, position)`
(lines 544-561).  The opening `if not restrict.any_count() and newcount !=
count` block of the source consists only of `pass` statements and has no
effect; a value living at a lane other than 0 is unpacked to lane 0. -/
def positionValues (restrict : TypeRestrict) (pack : OPack)
    (argList : List Op) (index : Nat) (position : Int) : VM (List Op) := do
  let arg ← VM.ofExcept (listGetE argList index)
  let vecinfo := arg.vinfo
  let _count := vecinfo.count
  let _newcount := restrict.count
  if position ≠ 0 then do
    let arg ← VM.ofExcept (listGetE argList index)
    let vecinfo := arg.vinfo
    let count := restrict.maxInputCount vecinfo.count
    let u ← unpackFromVector arg position count
    let argList := argList.set index u
    rememberArgsInVector pack index u
    pure argList
  else pure argList

/-- `assemble_scattered_values(state, pack, args, index)` (lines 521-529):
when the per-lane arguments live in more than one vector box, `gather` them
into one and remember the assignment. -/
def assembleScatteredValues (pack : OPack) (argList : List Op)
    (index : Nat) : VM (List Op) := do
  let argsAtIndex ← pack.operations.mapM
    (fun n => VM.ofExcept (n.op.getargE index))
  let cur ← VM.ofExcept (listGetE argList index)
  let argsAtIndex ← match argsAtIndex with
    | [] => VM.throw .indexError
    | _ :: rest => pure (cur :: rest)
  let vectors ← argumentVectors argsAtIndex
  if vectors.length > 1 then do
    let g ← gather vectors pack.numops
    let argList := argList.set index g
    rememberArgsInVector pack index g
    pure argList
  else pure argList

/-- The enumerated loop of `prepare_arguments` (lines 468-487), with fuel
equal to the argument count (every update is an in-place `args[i] = ...`,
so the length never changes): skip unrestricted slots; validate arguments
that already are vectors; `expand` arguments not residing in a vector;
otherwise substitute the vector box and run the scatter/crop/position
fix-ups; always re-validate the final argument. -/
def paLoop (oprestrict : OpRestrict) (pack : OPack) :
    Nat → Nat → List Op → VM (List Op)
  | 0, _, argList => pure argList
  | fuel + 1, i, argList =>
    if i ≥ argList.length then pure argList
    else do
      let arg ← VM.ofExcept (listGetE argList i)
      match oprestrict.argumentRestrictions.get? i with
      | none => paLoop oprestrict pack fuel (i + 1) argList
      | some none => paLoop oprestrict pack fuel (i + 1) argList
      | some (some restrict) =>
        if arg.isVector then do
          VM.ofExcept (restrict.check arg)
          paLoop oprestrict pack fuel (i + 1) argList
        else do
          let (pos, vecop?) ← getvectorOfBox arg
          match vecop? with
          | none => do
            let argList ← expand pack argList arg i
            let arg' ← VM.ofExcept (listGetE argList i)
            VM.ofExcept (restrict.check arg')
            paLoop oprestrict pack fuel (i + 1) argList
          | some vecop => do
            let argList := argList.set i vecop
            let argList ← assembleScatteredValues pack argList i
            let argList ← cropVectorFn oprestrict restrict pack argList i
            let argList ← positionValues restrict pack argList i pos
            let arg' ← VM.ofExcept (listGetE argList i)
            VM.ofExcept (restrict.check arg')
            paLoop oprestrict pack fuel (i + 1) argList

/-- `prepare_arguments(state, pack, args)` (lines 452-487): fetch the
restriction entry for the leftmost operation's vector opcode (returning
unchanged when there is none) and run the per-argument loop. -/
def prepareArguments (pack : OPack) (argList : List Op) : VM (List Op) := do
  let left ← VM.ofExcept pack.leftmostE
  match left.vectorOp.bind transMapping with
  | none => pure argList
  | some oprestrict => paLoop oprestrict pack argList.length 0 argList

/-- `check_if_pack_supported(state, pack)` (lines 563-575): for typecasts,
run `_prevent_signext` on the cast byte-sizes; an `INT_MUL` with element
size 8 or 1 raises the soft `NotAProfitableLoop`. -/
def checkIfPackSupported (pack : OPack) : Except VErr Unit := do
  let left ← pack.leftmostE
  let insize := left.vinfo.bytesize
  (if left.isTypecast then
    preventSignext left.castToBytesize left.castFromBytesize
   else .ok ())
  if left.opnum = ROp.int_mul then
    if insize = 8 ∨ insize = 1 then .error .notAProfitableLoop else .ok ()
  else .ok ()

/-- The per-fail-argument substitution of `prepare_fail_arguments`
(lines 493-499): look the argument up in `box_to_vbox`; keep it when it
resides in no vector; unpack lane 0 (count 1) when the found box is a
vector. -/
def pfaElem (arg : Op) : VM Op := do
  let (_, newarg?) ← getvectorOfBox arg
  let newarg := newarg?.getD arg
  if newarg.isVector then unpackFromVector newarg 0 1 else pure newarg

/-- The enumerated loop of `prepare_fail_arguments` (`args[i] = newarg` per
fail-argument, in trace order). -/
def pfaLoop : List Op → VM (List Op)
  | [] => pure []
  | a :: rest => do
    let r ← pfaElem a
    let rs ← pfaLoop rest
    pure (r :: rs)

/-- `prepare_fail_arguments(state, pack, left, vecop)` (lines 489-501):
assert both operations are guards, substitute every fail-argument through
`pfaElem`, and install the new list on the vector guard. -/
def prepareFailArguments (pack : OPack) (left vecop : Op) : VM Op := do
  let _ := pack
  if ¬ left.isGuard then VM.throw .assertionError
  else if ¬ vecop.isGuard then VM.throw .assertionError
  else do
    let argList ← pfaLoop left.failargs
    pure (vecop.setFailargs argList)

/-- `Renamer.start_renaming(op, vecop)`, modelled from the spec
(`renamer.py` is not among the sources): record the pending rename. -/
def startRenaming (a b : Op) : VM Unit :=
  VM.modifySt (fun s => { s with renames := s.renames ++ [(a.oid, b.oid)] })

/-- The member loop of `turn_into_vector` (lines 440-446): record each
non-void member result as lane `i` of the vector operation; accumulating
non-guard members additionally start renaming to the vector operation. -/
def tivMembers (pack : OPack) (vecop : Op) : List PNode → Int → VM Unit
  | [], _ => pure ()
  | n :: rest, i => do
    let op := n.op
    if op.returnsVoid then tivMembers pack vecop rest (i + 1)
    else do
      setvectorOfBox op i vecop
      (if pack.isAccumulating ∧ ¬ op.isGuard then startRenaming op vecop
       else pure ())
      tivMembers pack vecop rest (i + 1)

/-- `turn_into_vector(state, pack)` (lines 428-450): check support, record
the pack savings, validate via the restriction registry, transform the
leftmost operation's arguments, build the `VecOperation`, record the member
results, fix the fail arguments of guards, and append the vector
operation. -/
def turnIntoVector (pack : OPack) : VM Unit := do
  VM.ofExcept (checkIfPackSupported pack)
  recordCost (.packSavings pack.numops)
  let left ← VM.ofExcept pack.leftmostE
  let oprestrict ← VM.ofExcept (transGet left)
  VM.ofExcept (oprestrict.checkOperation left)
  let argList := left.args
  let argList ← prepareArguments pack argList
  let vopnum ← match left.vectorOp with
    | some v => pure v
    | none => VM.throw .attributeError
  let o ← VM.fresh
  let vecop := mkVecOperation o vopnum argList left pack.numops left.descr
  tivMembers pack vecop pack.operations 0
  let vecop ← if left.isGuard then prepareFailArguments pack left vecop
    else pure vecop
  appendOplist vecop
  if ¬ vecop.vinfo.count ≥ 1 then VM.throw .assertionError else pure ()

/-- The `box_to_vbox` lookup as a pure function of the state (the map is
not modified while fail arguments are prepared). -/
def boxLookup (s : VecSState) (a : Op) : Option (Int × Op) :=
  (s.boxToVbox.find? (fun kv => kv.1 == a.oid)).map (·.2)

/-- The shape `prepare_fail_arguments` substitutes for a fail-argument that
lives in a vector: a `VEC_UNPACK` of `src` extracting lane 0, count 1
(object identities of the created operations are existential). -/
def IsLaneZeroUnpack (res src : Op) : Prop :=
  ∃ o1 o2 o3, res = createVecUnpack o3 src.typ
    [src, mkConstInt o1 0, mkConstInt o2 1] src.vinfo.bytesize
    src.vinfo.signed 1

end VOp

namespace Sched

/-- The node ids of a member list. -/
def nidsOf (l : List SNode) : List Nat := l.map (·.nid)

/-- The scheduling invariant carried through `walk_and_emit` over the
original edge set `E0`: edges only disappear when an endpoint is emitted
and never touch emitted nodes; scalar oplist entries belong to emitted
nodes whose dependency sources were all emitted first (and hence appear
earlier); an emitted pack has all members emitted, none of them in the
oplist as a scalar, its vector operation exactly once, and after every
already-emitted external source; the membership map stays inside the
packset and is cleared pack-wise. -/
structure SchedInv (packs : List PackInfo) (E0 : List Edge) (st : VState) :
    Prop where
  edges_sub : ∀ e ∈ st.edges, e ∈ E0
  edges_src_live : ∀ e ∈ st.edges, e.1.nid ∉ st.emitted
  edges_tgt_live : ∀ e ∈ st.edges, e.2.nid ∉ st.emitted
  removed_emitted : ∀ e ∈ E0, e ∉ st.edges →
    e.1.nid ∈ st.emitted ∨ e.2.nid ∈ st.emitted
  scalar_emitted : ∀ n, EOp.scalar n ∈ st.oplist → n ∈ st.emitted
  emitted_pack_vec : ∀ n pid, n ∈ st.emitted →
    lookupPack st.packOf n = some pid → EOp.vec pid ∈ st.oplist
  vec_members : ∀ pid pk, EOp.vec pid ∈ st.oplist →
    findPack packs pid = some pk → ∀ m ∈ pk.members, m.nid ∈ st.emitted
  vec_no_scalar : ∀ pid pk, EOp.vec pid ∈ st.oplist →
    findPack packs pid = some pk → ∀ m ∈ pk.members,
    EOp.scalar m.nid ∉ st.oplist
  vec_unique : ∀ (pid : Nat) (i j : Nat), st.oplist[i]? = some (EOp.vec pid) →
    st.oplist[j]? = some (EOp.vec pid) → i = j
  scalar_order : ∀ e ∈ E0, e.1.nid ≠ e.2.nid → ∀ (i j : Nat),
    st.oplist[i]? = some (EOp.scalar e.1.nid) →
    st.oplist[j]? = some (EOp.scalar e.2.nid) → i < j
  source_emitted : ∀ e ∈ E0, EOp.scalar e.2.nid ∈ st.oplist →
    e.1.nid ∈ st.emitted
  source_emitted_vec : ∀ e ∈ E0, ∀ pid pk, findPack packs pid = some pk →
    EOp.vec pid ∈ st.oplist → e.2.nid ∈ nidsOf pk.members →
    e.1.nid ∉ nidsOf pk.members → e.1.nid ∈ st.emitted
  vec_order : ∀ e ∈ E0, ∀ pid pk, findPack packs pid = some pk →
    e.2.nid ∈ nidsOf pk.members → e.1.nid ∉ nidsOf pk.members → ∀ (i j : Nat),
    st.oplist[i]? = some (EOp.scalar e.1.nid) →
    st.oplist[j]? = some (EOp.vec pid) → i < j
  scalar_unique : ∀ (n : Nat) (i j : Nat),
    st.oplist[i]? = some (EOp.scalar n) →
    st.oplist[j]? = some (EOp.scalar n) → i = j
  vec_scalar_order : ∀ e ∈ E0, ∀ pid pk, findPack packs pid = some pk →
    e.1.nid ∈ nidsOf pk.members → e.2.nid ∉ nidsOf pk.members → ∀ (i j : Nat),
    st.oplist[i]? = some (EOp.vec pid) →
    st.oplist[j]? = some (EOp.scalar e.2.nid) → i < j
  vec_vec_order : ∀ e ∈ E0, ∀ (p q : Nat) (pkp pkq : PackInfo),
    findPack packs p = some pkp → findPack packs q = some pkq →
    e.1.nid ∈ nidsOf pkp.members → e.1.nid ∉ nidsOf pkq.members →
    e.2.nid ∈ nidsOf pkq.members → ∀ (i j : Nat),
    st.oplist[i]? = some (EOp.vec p) →
    st.oplist[j]? = some (EOp.vec q) → i < j
  packof_member : ∀ n pid, lookupPack st.packOf n = some pid →
    ∃ pk, findPack packs pid = some pk ∧ n ∈ nidsOf pk.members
  packof_allnone : ∀ pid pk, findPack packs pid = some pk →
    (∀ m ∈ pk.members, lookupPack st.packOf m.nid = some pid) ∨
    (∀ m ∈ pk.members, lookupPack st.packOf m.nid ≠ some pid)

/-- Where a node's operation appears in the final oplist: either as its own
scalar operation, or — for a member of a vectorized pack — as that pack's
single vector operation. -/
def appearsAt (packs : List PackInfo) (st : VState) (n : Nat) (i : Nat) :
    Prop :=
  st.oplist[i]? = some (EOp.scalar n) ∨
  ∃ (pid : Nat) (pk : PackInfo), findPack packs pid = some pk ∧
    n ∈ nidsOf pk.members ∧ st.oplist[i]? = some (EOp.vec pid)

/-- Sample node for concrete runs. -/
def nodeA : SNode := ⟨1, 0, 0, false⟩

/-- Sample node for concrete runs. -/
def nodeB : SNode := ⟨2, 0, 1, false⟩

/-- Sample node for concrete runs. -/
def nodeC : SNode := ⟨3, 1, 2, false⟩

/-- A two-node dependency graph (`nodeA → nodeB`) about to be scheduled. -/
def sampleWalkState : VState := ⟨[(nodeA, nodeB)], [], [nodeA], [], []⟩

/-- The state `walk_and_emit` produces from `sampleWalkState`: both nodes
emitted in dependency order. -/
def sampleWalkFinal : VState :=
  ⟨[], [2, 1], [], [EOp.scalar 1, EOp.scalar 2], []⟩

/-- A state with one resolved edge, for exercising `markEmitted`. -/
def sampleMarkState : VState := ⟨[(nodeA, nodeB)], [], [nodeC], [], []⟩

end Sched

namespace VOp

/-- A scalar int32 arithmetic operation for concrete runs. -/
def sampleArith (o : Nat) : Op :=
  Op.mk o .int_add (some .vec_int_add) ⟨INT, 4, 1, true⟩ [] none [] {}

/-- Six isomorphic int32 operations as pack member nodes. -/
def sampleNodes6 : List PNode :=
  (List.range 6).map (fun i => PNode.mk (i + 1) (sampleArith (i + 1)))

/-- A six-member int32 pack (the `split` boundary scenario). -/
def samplePack6 : OPack := { pid := 0, operations := sampleNodes6 }

/-- The membership state in which `samplePack6` owns its six nodes. -/
def sampleSplitSt : SplitSt :=
  ⟨[], (List.range 6).map (fun i => (i + 1, 0, (i : Int))), 1⟩

/-- An empty pack (for the `pack_load` boundary). -/
def emptyPack : OPack := { pid := 9, operations := [] }

/-- A type restriction fixing only `sign = SIGNED`. -/
def signRestrict : TypeRestrict := { sign := 1 }

/-- A signed 8-byte int value (its signedness matches `signRestrict`). -/
def signedValue : Op := Op.mk 10 .int_add none ⟨INT, 8, 1, true⟩ [] none [] {}

/-- An unsigned 8-byte int value (its signedness mismatches
`signRestrict`). -/
def unsignedValue : Op :=
  Op.mk 11 .int_add none ⟨INT, 8, 1, false⟩ [] none [] {}

/-- An 8-byte `INT_MUL` operation (the forbidden int64 multiply). -/
def sampleMul (o : Nat) : Op :=
  Op.mk o .int_mul (some .vec_int_mul) ⟨INT, 8, 1, true⟩ [] none [] {}

/-- A two-member 8-byte `INT_MUL` pack. -/
def sampleMulPack : OPack :=
  { pid := 3, operations := [⟨21, sampleMul 21⟩, ⟨22, sampleMul 22⟩] }

/-- An empty transformation state with object ids from 100. -/
def sampleVecState : VecSState := ⟨100, [], [], [], [], [], [], [], [], [], []⟩

/-- A 4-lane int32 vector box. -/
def sampleVecBox : Op :=
  Op.mk 50 .vec_int_add none ⟨INT, 4, 4, true⟩ [] none [] { isVector := true }

/-- A scalar fail-argument that will be found inside `sampleVecBox`. -/
def sampleFailArg1 : Op := Op.mk 31 .int_add none ⟨INT, 4, 1, true⟩ [] none [] {}

/-- A scalar fail-argument with no vector location. -/
def sampleFailArg2 : Op := Op.mk 32 .int_add none ⟨INT, 4, 1, true⟩ [] none [] {}

/-- A scalar guard with the two sample fail-arguments. -/
def sampleGuard : Op :=
  Op.mk 33 .guard_true (some .vec_guard_true) ⟨INT, 4, 1, true⟩ [] none
    [sampleFailArg1, sampleFailArg2] { isGuard := true, returnsVoid := true }

/-- The vector companion guard of `sampleGuard` (before fail-argument
preparation). -/
def sampleVecGuard : Op := mkVecOperation 60 .vec_guard_true [] sampleGuard 2 none

/-- A transformation state in which `sampleFailArg1` lives in lane 2 of
`sampleVecBox`. -/
def sampleGuardState : VecSState :=
  ⟨100, [], [], [], [(31, 2, sampleVecBox)], [], [], [], [], [], []⟩

/-- A singleton pack around `sampleGuard` (the pack argument of
`prepare_fail_arguments` is unused by its body). -/
def sampleGuardPack : OPack := { pid := 4, operations := [⟨41, sampleGuard⟩] }

/-- Pack member nodes for the combination claims. -/
def combNode1 : PNode := ⟨71, sampleArith 71⟩

/-- See `combNode1`. -/
def combNode2 : PNode := ⟨72, sampleArith 72⟩

/-- See `combNode1`. -/
def combNode3 : PNode := ⟨73, sampleArith 73⟩

/-- A plain (non-accumulating) pair whose rightmost node is `combNode2`. -/
def plainPairPack : OPack := { pid := 5, operations := [combNode1, combNode2] }

/-- An accumulating pack whose leftmost node is `combNode2`. -/
def accumPairPack : OPack :=
  { pid := 6, operations := [combNode2, combNode3], accum := true,
    operator := '+', position := 0 }

/-- C2: the claim says `TypeRestrict.check` returns when the value's sign
matches a sign-fixing restriction and raises on mismatch.  The source
(line 261) raises exactly when `bool(self.sign) == vecinfo.sign`, i.e. on a
MATCH: with the restriction fixing `SIGNED` and a signed value, `check`
raises the fatal "sign mismatch"; with an unsigned value it returns.  The
code contradicts its own error message, so this evaluates the code at the
failing input. -/
theorem c2_check_sign_inverted :
    TypeRestrict.check signRestrict signedValue
      = .error (.notImplemented .signMismatch) ∧
    TypeRestrict.check signRestrict unsignedValue = .ok () :=
  ⟨rfl, rfl⟩

/-- C3: the claim says an empty pack's `pack_load` returns -1.  But
`pack_load` (line 922) evaluates `self.leftmost()` first, which indexes
`operations[0]` and raises `IndexError` on an empty pack; the
`numops() == 0` branch returning -1 (line 937) is dead code.  This
evaluates the code at the failing input. -/
theorem c3_pack_load_empty_crashes :
    OPack.packLoad emptyPack 16 = .error .indexError := rfl

/-- C5 counterexample: the claim says `_prevent_signext(outsize, insize)`
raises whenever `outsize < 4` or `insize < 4`; at `outsize = insize = 2`
both are below 4 and yet the code returns without raising (the guard
`insize != outsize` fails). -/
theorem c5_counterexample_equal_sizes :
    preventSignext 2 2 = .ok () ∧ ((2 : Int) < 4) :=
  ⟨rfl, by norm_num⟩

/-- C5 (amended): `_prevent_signext(outsize, insize)` raises
`NotAProfitableLoop` exactly when the sizes differ and either is below 4
bytes. -/
theorem c5_prevent_signext_iff (outsize insize : Int) :
    preventSignext outsize insize = .error .notAProfitableLoop ↔
    (insize ≠ outsize ∧ (outsize < 4 ∨ insize < 4)) := by
  unfold preventSignext
  by_cases h1 : insize ≠ outsize
  · by_cases h2 : outsize < 4 ∨ insize < 4
    · rw [if_pos h1, if_pos h2]
      simp [h1, h2]
    · rw [if_pos h1, if_neg h2]
      simp [h2]
  · rw [if_neg h1]
    simp [h1]

/-- C9 counterexample: the claim says an accumulating pack never matches a
non-accumulating one and that for accumulating packs both must agree on the
accumulator position.  Here a plain pack whose rightmost node is the
accumulating pack's leftmost node matches it (`rightmost_match_leftmost`
returns true) although the other pack is accumulating and the positions
differ: the source checks accumulation only on the receiver. -/
theorem c9_counterexample_accum_onesided :
    OPack.rightmostMatchLeftmost plainPairPack accumPairPack = .ok true ∧
    plainPairPack.isAccumulating = false ∧
    accumPairPack.isAccumulating = true ∧
    plainPairPack.position ≠ accumPairPack.position :=
  ⟨rfl, rfl, rfl, by decide⟩

/-- C9 (amended): `self.rightmost_match_leftmost(other)` returns true iff
the last node of `self` is identically the first node of `other` and, when
`self` is accumulating, `other` is accumulating too with the same
accumulator position; no accumulation check is applied when only `other`
is accumulating. -/
theorem c9_rightmost_match_leftmost_iff (self other : OPack) (r l : PNode)
    (hr : self.operations.getLast? = some r)
    (hl : other.operations.head? = some l) :
    self.rightmostMatchLeftmost other = .ok true ↔
    (r.nid = l.nid ∧
      (self.accum = true → other.accum = true ∧ self.position = other.position)) := by
  unfold OPack.rightmostMatchLeftmost
  rw [hr, hl]
  unfold OPack.isAccumulating
  by_cases ha : self.accum = true
  · by_cases hb : other.accum = true
    · by_cases hp : self.position = other.position
      · simp [ha, hb, hp]
      · simp [ha, hb, hp]
    · simp [ha, hb, Bool.not_eq_true _ ▸ hb]
  · simp [ha, Bool.of_not_eq_true ha]

/-- C9 witness: the amended characterization applied to the plain pair
matching the accumulating pack (last node of the first is the first node of
the second, and the first pack is not accumulating). -/
theorem c9_witness_plain_match :
    OPack.rightmostMatchLeftmost plainPairPack accumPairPack = .ok true :=
  (c9_rightmost_match_leftmost_iff plainPairPack accumPairPack combNode2
    combNode2 rfl rfl).mpr ⟨rfl, by intro h; exact absurd h (by decide)⟩

/-- C7: splitting the six-member int32 pack with `vec_reg_size = 16`
leaves the original pack holding exactly its first four nodes (a full
pack: `pack_load = 0`), appends no new pack to the packlist, and clears
the remainder nodes' membership (nodes 5 and 6 revert to scalar) while the
four kept nodes point at the original pack at positions 0..3. -/
theorem c7_split_six_int32 :
    ∃ p s, OPack.split samplePack6 sampleSplitSt 16 = some (.ok (p, s)) ∧
      p.pid = samplePack6.pid ∧
      p.operations = samplePack6.operations.take 4 ∧
      p.packLoad 16 = .ok 0 ∧
      s.packlist = [] ∧
      membGet s.memb 1 = some (0, 0) ∧
      membGet s.memb 2 = some (0, 1) ∧
      membGet s.memb 3 = some (0, 2) ∧
      membGet s.memb 4 = some (0, 3) ∧
      membGet s.memb 5 = none ∧
      membGet s.memb 6 = none := by
  refine ⟨_, _, rfl, rfl, rfl, rfl, rfl, rfl, rfl, rfl, rfl, rfl, rfl⟩

/-- Evaluation of a monadic bind in `VM` when the first action succeeds. -/
theorem vm_bind_ok {α β : Type} {m : VM α} {f : α → VM β} {s s' : VecSState}
    {a : α} (h : m s = (.ok a, s')) : (m >>= f) s = f a s' := by
  change (match m s with
    | (.ok a, s') => f a s'
    | (.error e, s') => ((.error e : Except VErr β), s')) = f a s'
  rw [h]

/-- Evaluation of a monadic bind in `VM` when the first action raises. -/
theorem vm_bind_err {α β : Type} {m : VM α} {f : α → VM β} {s s' : VecSState}
    {e : VErr} (h : m s = (.error e, s')) :
    (m >>= f) s = ((.error e : Except VErr β), s') := by
  change (match m s with
    | (.ok a, s') => f a s'
    | (.error e, s') => ((.error e : Except VErr β), s')) = _
  rw [h]

/-- Evaluation of `pure` in `VM`. -/
theorem vm_pure (a : α) (s : VecSState) :
    (pure a : VM α) s = (.ok a, s) := rfl

/-- `boxLookup` depends only on the `box_to_vbox` field. -/
theorem boxLookup_congr {s1 s2 : VecSState} (h : s1.boxToVbox = s2.boxToVbox)
    (a : Op) : boxLookup s1 a = boxLookup s2 a := by
  unfold boxLookup; rw [h]

/-- Behavior of the per-fail-argument substitution `pfaElem`: it succeeds,
it leaves `box_to_vbox` unchanged, its result is scalar, and the result is
the original argument (no vector location), the found non-vector box, or a
lane-0 single-lane unpack of the found vector box. -/
theorem pfaElem_spec (B : List (Nat × Int × Op))
    (hcnt : ∀ kv ∈ B, (1 : Int) ≤ (kv.2.2).vinfo.count)
    (st1 : VecSState) (hB : st1.boxToVbox = B) (a : Op)
    (ha : a.isVector = false) :
    ∃ b st2, pfaElem a st1 = (.ok b, st2) ∧ st2.boxToVbox = B ∧
      b.isVector = false ∧
      ((boxLookup st1 a = none ∧ b = a) ∨
       (∃ p v, boxLookup st1 a = some (p, v) ∧ v.isVector = false ∧ b = v) ∨
       (∃ p v, boxLookup st1 a = some (p, v) ∧ v.isVector = true ∧
         IsLaneZeroUnpack b v)) := by
  cases hfind : st1.boxToVbox.find? (fun kv => kv.1 == a.oid) with
  | none =>
    refine ⟨a, st1, ?_, hB, ha, Or.inl ⟨?_, rfl⟩⟩
    · have h1 : getvectorOfBox a st1 = (.ok ((-1 : Int), none), st1) := by
        unfold getvectorOfBox; rw [hfind]
      unfold pfaElem
      rw [vm_bind_ok h1]
      simp only [Option.getD]
      rw [ha]
      rfl
    · unfold boxLookup; rw [hfind]; rfl
  | some kv =>
    have h1 : getvectorOfBox a st1 = (.ok (kv.2.1, some kv.2.2), st1) := by
      unfold getvectorOfBox; rw [hfind]
    have hlook : boxLookup st1 a = some (kv.2.1, kv.2.2) := by
      unfold boxLookup; rw [hfind]; rfl
    cases hv : (kv.2.2).isVector with
    | false =>
      refine ⟨kv.2.2, st1, ?_, hB, hv,
        Or.inr (Or.inl ⟨kv.2.1, kv.2.2, hlook, hv, rfl⟩)⟩
      unfold pfaElem
      rw [vm_bind_ok h1]
      simp only [Option.getD]
      rw [hv]
      rfl
    | true =>
      have hkm : kv ∈ B := by
        rw [← hB]; exact List.mem_of_find?_eq_some hfind
      have hc : (1 : Int) ≤ (kv.2.2).vinfo.count := hcnt kv hkm
      have heval : pfaElem a st1 =
          (.ok (createVecUnpack (st1.nextOid + 2) (kv.2.2).typ
            [kv.2.2, mkConstInt st1.nextOid 0, mkConstInt (st1.nextOid + 1) 1]
            (kv.2.2).vinfo.bytesize (kv.2.2).vinfo.signed 1),
          ({ st1 with
              nextOid := st1.nextOid + 3,
              costlog := st1.costlog ++
                [CostEvent.vectorUnpack (kv.2.2).oid 0 1],
              oplist := st1.oplist ++
                [createVecUnpack (st1.nextOid + 2) (kv.2.2).typ
                  [kv.2.2, mkConstInt st1.nextOid 0,
                    mkConstInt (st1.nextOid + 1) 1]
                  (kv.2.2).vinfo.bytesize (kv.2.2).vinfo.signed 1] } :
            VecSState)) := by
        unfold pfaElem
        rw [vm_bind_ok h1]
        simp only [Option.getD]
        rw [hv]
        rw [if_pos rfl]
        unfold unpackFromVector
        have hgt : ¬ ¬ ((1 : Int) > 0) := by norm_num
        rw [if_neg hgt]
        have hle : ¬ ¬ ((0 : Int) + 1 ≤ (kv.2.2).vinfo.count) := by
          simp only [zero_add]; exact not_not_intro hc
        rw [if_neg hle]
        rfl
      exact ⟨_, _, heval, hB, rfl,
        Or.inr (Or.inr ⟨kv.2.1, kv.2.2, hlook, hv,
          st1.nextOid, st1.nextOid + 1, st1.nextOid + 2, rfl⟩)⟩

/-- Behavior of the fail-argument loop: element-wise `pfaElem`, preserving
length and `box_to_vbox`. -/
theorem pfaLoop_spec (B : List (Nat × Int × Op))
    (hcnt : ∀ kv ∈ B, (1 : Int) ≤ (kv.2.2).vinfo.count) :
    ∀ (l : List Op) (st1 : VecSState), st1.boxToVbox = B →
    (∀ a ∈ l, a.isVector = false) →
    ∃ out st2, pfaLoop l st1 = (.ok out, st2) ∧ st2.boxToVbox = B ∧
      out.length = l.length ∧
      (∀ (i : Nat) (a : Op), l[i]? = some a → ∃ b, out[i]? = some b ∧
        b.isVector = false ∧
        ((boxLookup st1 a = none ∧ b = a) ∨
         (∃ p v, boxLookup st1 a = some (p, v) ∧ v.isVector = false ∧ b = v) ∨
         (∃ p v, boxLookup st1 a = some (p, v) ∧ v.isVector = true ∧
           IsLaneZeroUnpack b v))) := by
  intro l
  induction l with
  | nil =>
    intro st1 hB _
    exact ⟨[], st1, rfl, hB, rfl, by intro i a h; cases h⟩
  | cons a rest ih =>
    intro st1 hB hsc
    obtain ⟨b, st2, hel, hB2, hbv, hcase⟩ :=
      pfaElem_spec B hcnt st1 hB a (hsc a (List.mem_cons_self a rest))
    obtain ⟨out, st3, hloop, hB3, hlen, helems⟩ :=
      ih st2 hB2 (fun x hx => hsc x (List.mem_cons_of_mem a hx))
    refine ⟨b :: out, st3, ?_, hB3, by simp [hlen], ?_⟩
    · show (pfaElem a >>= fun r => pfaLoop rest >>= fun rs => pure (r :: rs)) st1
        = (.ok (b :: out), st3)
      rw [vm_bind_ok hel, vm_bind_ok hloop, vm_pure]
    · intro i x hx
      match i with
      | 0 =>
        rw [List.getElem?_cons_zero] at hx
        cases hx
        exact ⟨b, by rw [List.getElem?_cons_zero], hbv, hcase⟩
      | (j + 1) =>
        rw [List.getElem?_cons_succ] at hx
        obtain ⟨b', hb', hv', hc'⟩ := helems j x hx
        refine ⟨b', by rw [List.getElem?_cons_succ]; exact hb', hv', ?_⟩
        have : boxLookup st2 x = boxLookup st1 x :=
          boxLookup_congr (by rw [hB2, hB]) x
        rw [← this]
        exact hc'

/-- C4: for every vectorized guard, `prepare_fail_arguments` succeeds and
produces a fail-argument list of exactly the original length, in which an
argument residing in a vector is replaced by a `VEC_UNPACK` extracting a
single lane (index 0, count 1) and every resulting fail-argument is
scalar.  Hypotheses: both operations are guards, the original
fail-arguments are scalars, and the vector boxes in `box_to_vbox` have at
least one lane (the spec invariant `count ≥ 1`). -/
theorem c4_prepare_fail_arguments (st : VecSState) (pack : OPack)
    (left vecop : Op) (hl : left.isGuard = true) (hv : vecop.isGuard = true)
    (hfa : ∀ a ∈ left.failargs, a.isVector = false)
    (hcnt : ∀ kv ∈ st.boxToVbox, (1 : Int) ≤ (kv.2.2).vinfo.count) :
    ∃ out st', prepareFailArguments pack left vecop st
        = (.ok (vecop.setFailargs out), st') ∧
      out.length = left.failargs.length ∧
      (∀ (i : Nat) (a : Op), left.failargs[i]? = some a → ∃ b, out[i]? = some b ∧
        b.isVector = false ∧
        ((boxLookup st a = none ∧ b = a) ∨
         (∃ p v, boxLookup st a = some (p, v) ∧ v.isVector = false ∧ b = v) ∨
         (∃ p v, boxLookup st a = some (p, v) ∧ v.isVector = true ∧
           IsLaneZeroUnpack b v))) := by
  obtain ⟨out, st2, hloop, _, hlen, helems⟩ :=
    pfaLoop_spec st.boxToVbox hcnt left.failargs st rfl hfa
  refine ⟨out, st2, ?_, hlen, helems⟩
  unfold prepareFailArguments
  rw [hl, hv]
  simp only [not_true, if_neg, ite_false]
  show (pfaLoop left.failargs >>= fun argList =>
    pure (vecop.setFailargs argList)) st = _
  rw [vm_bind_ok hloop, vm_pure]

/-- C4 witness: on the sample guard (one fail-argument living in a vector,
one not), the prepared fail-argument list again has two entries. -/
theorem c4_witness_sample_guard :
    ((VOp.prepareFailArguments VOp.sampleGuardPack VOp.sampleGuard
      VOp.sampleVecGuard VOp.sampleGuardState).1).map
        (fun v => v.failargs.length) = .ok 2 := by
  obtain ⟨out, st', heq, hlen, _⟩ := c4_prepare_fail_arguments
    sampleGuardState sampleGuardPack sampleGuard sampleVecGuard rfl rfl
    (by intro a ha
        simp only [sampleGuard, Op.failargs, List.mem_cons,
          List.mem_singleton] at ha
        rcases ha with h | h | h
        · rw [h]; rfl
        · rw [h]; rfl
        · cases h)
    (by intro kv hkv
        simp only [sampleGuardState, List.mem_singleton] at hkv
        rw [hkv]; norm_num [sampleVecBox, Op.vinfo])
  rw [heq]
  have : out.length = 2 := by rw [hlen]; rfl
  simp [Except.map, Op.setFailargs, sampleVecGuard, mkVecOperation,
    Op.failargs, this]

/-- `preventSignext` either returns or raises `NotAProfitableLoop`. -/
theorem preventSignext_cases (outsize insize : Int) :
    preventSignext outsize insize = .ok () ∨
    preventSignext outsize insize = .error .notAProfitableLoop := by
  unfold preventSignext
  by_cases h1 : insize ≠ outsize <;> by_cases h2 : outsize < 4 ∨ insize < 4 <;>
    simp [h1, h2]

/-- `check_if_pack_supported` raises `NotAProfitableLoop` on a pack whose
leftmost operation is `INT_MUL` with element byte-size 8 or 1 (any
typecast prevention that fires first raises the same exception). -/
theorem checkIfPackSupported_int_mul (pack : OPack) (left : Op)
    (hl : pack.leftmostE = .ok left) (hm : left.opnum = ROp.int_mul)
    (hs : left.vinfo.bytesize = 8 ∨ left.vinfo.bytesize = 1) :
    checkIfPackSupported pack = .error .notAProfitableLoop := by
  unfold checkIfPackSupported
  rw [hl]
  show (if left.isTypecast then
      preventSignext left.castToBytesize left.castFromBytesize
    else Except.ok ()) >>= (fun _ =>
      if left.opnum = ROp.int_mul then
        if left.vinfo.bytesize = 8 ∨ left.vinfo.bytesize = 1 then
          Except.error .notAProfitableLoop
        else Except.ok ()
      else Except.ok ()) = _
  have htail : (if left.opnum = ROp.int_mul then
      if left.vinfo.bytesize = 8 ∨ left.vinfo.bytesize = 1 then
        (Except.error .notAProfitableLoop : Except VErr Unit)
      else Except.ok ()
    else Except.ok ()) = .error .notAProfitableLoop := by
    rw [if_pos hm, if_pos hs]
  have hif : (if left.isTypecast = true then
      preventSignext left.castToBytesize left.castFromBytesize
    else Except.ok ()) = Except.ok () ∨
    (if left.isTypecast = true then
      preventSignext left.castToBytesize left.castFromBytesize
    else Except.ok ()) = Except.error VErr.notAProfitableLoop := by
    cases htc : left.isTypecast
    · rw [if_neg (by simp)]
      exact Or.inl rfl
    · rw [if_pos rfl]
      exact preventSignext_cases left.castToBytesize left.castFromBytesize
  rcases hif with h | h <;> rw [h]
  · exact htail
  · rfl

/-- C6: `turn_into_vector` on a pack whose leftmost operation is `INT_MUL`
with element byte-size 8 or 1 raises `NotAProfitableLoop` and leaves the
state completely unchanged: `check_if_pack_supported` runs before
`record_pack_savings`, so no pack savings are recorded in the cost model,
no operation is appended and the pack's operations remain scalar. -/
theorem c6_int_mul_pack_rejected (st : VecSState) (pack : OPack) (left : Op)
    (hl : pack.leftmostE = .ok left) (hm : left.opnum = ROp.int_mul)
    (hs : left.vinfo.bytesize = 8 ∨ left.vinfo.bytesize = 1) :
    turnIntoVector pack st = (.error .notAProfitableLoop, st) := by
  have hc := checkIfPackSupported_int_mul pack left hl hm hs
  unfold turnIntoVector
  rw [hc]
  rfl

/-- C6 witness: the two-member 8-byte `INT_MUL` pack is rejected with an
unchanged state (empty cost log). -/
theorem c6_witness_int64_mul :
    VOp.turnIntoVector VOp.sampleMulPack VOp.sampleVecState
      = (.error .notAProfitableLoop, VOp.sampleVecState) :=
  c6_int_mul_pack_rejected sampleVecState sampleMulPack (sampleMul 21) rfl
    rfl (Or.inl rfl)

end VOp

namespace Sched

/-- The worklist order is reflexive. -/
theorem wlLE_refl (a : SNode) : wlLE a a := Or.inr ⟨rfl, le_refl _⟩

/-- The worklist order is transitive. -/
theorem wlLE_trans {a b c : SNode} (h1 : wlLE a b) (h2 : wlLE b c) :
    wlLE a c := by
  unfold wlLE at h1 h2 ⊢
  omega

/-- Members of the reversed-insertion result. -/
theorem mem_insRev {t x : SNode} :
    ∀ {l : List SNode}, x ∈ insRev t l ↔ (x = t ∨ x ∈ l) := by
  intro l
  induction l with
  | nil => simp [insRev]
  | cons c rest ih =>
    unfold insRev
    by_cases hc : c.priority < t.priority ∨
        (c.priority = t.priority ∧ t.tidx < c.tidx)
    · rw [if_pos hc]
      simp only [List.mem_cons]
    · rw [if_neg hc]
      simp only [List.mem_cons, ih]
      tauto

/-- The insertion scan preserves sortedness of the reversed worklist. -/
theorem insRev_pairwise (t : SNode) :
    ∀ {l : List SNode}, l.Pairwise (fun a b => wlLE b a) →
    (insRev t l).Pairwise (fun a b => wlLE b a) := by
  intro l
  induction l with
  | nil =>
    intro _
    simp [insRev]
  | cons c rest ih =>
    intro h
    rw [List.pairwise_cons] at h
    obtain ⟨hc, hrest⟩ := h
    unfold insRev
    by_cases hcond : c.priority < t.priority ∨
        (c.priority = t.priority ∧ t.tidx < c.tidx)
    · rw [if_pos hcond]
      have hct : wlLE c t := by unfold wlLE; omega
      refine List.Pairwise.cons ?_ (List.Pairwise.cons hc hrest)
      intro y hy
      rcases List.mem_cons.mp hy with h | h
      · rw [h]; exact hct
      · exact wlLE_trans (hc y h) hct
    · rw [if_neg hcond]
      push_neg at hcond
      have htc : wlLE t c := by unfold wlLE; omega
      refine List.Pairwise.cons ?_ (ih hrest)
      intro y hy
      rcases mem_insRev.mp hy with h | h
      · rw [h]; exact htc
      · exact hc y h

/-- `insertByPriority` preserves the worklist sort invariant. -/
theorem wlSorted_insertByPriority (t : SNode) {wl : List SNode}
    (h : WlSorted wl) : WlSorted (insertByPriority t wl) := by
  unfold WlSorted insertByPriority
  rw [List.pairwise_reverse]
  exact insRev_pairwise t (List.pairwise_reverse.mpr h)

/-- One out-edge pass leaves the worklist sorted. -/
theorem markStepF_sorted {acc : VState} (e : Edge)
    (h : WlSorted acc.worklist) : WlSorted (markStepF acc e).worklist := by
  simp only [markStepF]
  split
  · exact wlSorted_insertByPriority _ h
  · exact h

/-- The whole out-edge fold leaves the worklist sorted. -/
theorem markFold_sorted :
    ∀ (l : List Edge) (acc : VState), WlSorted acc.worklist →
    WlSorted ((l.foldl markStepF acc).worklist) := by
  intro l
  induction l with
  | nil => intro acc h; exact h
  | cons e rest ih =>
    intro acc h
    simp only [List.foldl_cons]
    exact ih _ (markStepF_sorted e h)

/-- In a sorted worklist, the tail element is maximal: popping from the
tail yields a highest-priority node, ties broken in favor of the earliest
trace index. -/
theorem wlSorted_last {wl : List SNode} (h : List.Pairwise wlLE wl) :
    ∀ lastN, wl.getLast? = some lastN → ∀ x ∈ wl, wlLE x lastN := by
  intro lastN hl x hx
  have h1 : List.Pairwise (fun a b => wlLE b a) wl.reverse :=
    List.pairwise_reverse.mpr h
  have hh : wl.reverse.head? = some lastN := by
    rw [List.head?_reverse]; exact hl
  have hx' : x ∈ wl.reverse := List.mem_reverse.mpr hx
  cases hwr : wl.reverse with
  | nil => rw [hwr] at hh; cases hh
  | cons y ys =>
    rw [hwr] at hh h1 hx'
    simp only [List.head?_cons, Option.some.injEq] at hh
    subst hh
    rw [List.pairwise_cons] at h1
    rcases List.mem_cons.mp hx' with h2 | h2
    · rw [h2]; exact wlLE_refl _
    · exact h1.1 x h2

/-- C8: `Scheduler.mark_emitted` preserves the worklist ordering invariant:
every target inserted (because its dependency count dropped to zero and it
was not yet emitted) is placed at a position keeping the list sorted by
priority ascending from head to tail with equal priorities ordered by
original trace index descending toward the head (`wlLE`), so that the tail
is always a highest-priority node with ties broken in favor of earlier
trace order. -/
theorem c8_mark_emitted_keeps_worklist_sorted (node : SNode) (st : VState)
    (h : WlSorted st.worklist) :
    WlSorted (markEmitted node st).worklist ∧
    (∀ lastN, (markEmitted node st).worklist.getLast? = some lastN →
      ∀ x ∈ (markEmitted node st).worklist, wlLE x lastN) := by
  have hs : WlSorted (markEmitted node st).worklist := by
    unfold markEmitted
    exact markFold_sorted _ st h
  exact ⟨hs, wlSorted_last hs⟩

/-- C8 witness: marking `nodeA` emitted on a state with the single edge
`nodeA → nodeB` and the sorted worklist `[nodeC]` leaves the worklist
sorted (with `nodeB` inserted). -/
theorem c8_witness_mark_emitted :
    WlSorted (markEmitted nodeA sampleMarkState).worklist :=
  (c8_mark_emitted_keeps_worklist_sorted nodeA sampleMarkState (by decide)).1

/-- Fuel sufficiency for `Scheduler.next`: each pass either shortens the
worklist (dropping an emitted node) or increments `visited`, and the loop
stops at `visited = |worklist|`, so `2·|worklist| - visited` bounds the
remaining passes. -/
theorem nextAux_ne_none (em dl : SNode → Bool) :
    ∀ (fuel : Nat) (wl : List SNode) (visited : Nat), visited ≤ wl.length →
    2 * wl.length - visited < fuel →
    nextAux em dl fuel wl visited ≠ none := by
  intro fuel
  induction fuel with
  | zero => intro wl visited _ hf; omega
  | succ fuel ih =>
    intro wl visited hv hf
    unfold nextAux
    by_cases he : wl.isEmpty
    · rw [if_pos he]; exact Option.noConfusion
    · rw [if_neg he]
      by_cases hvl : visited = wl.length
      · rw [if_pos hvl]; exact Option.noConfusion
      · rw [if_neg hvl]
        have hne : wl ≠ [] := by
          intro h; rw [h] at he; exact he rfl
        have hlen : 1 ≤ wl.length := by
          cases wl with
          | nil => exact absurd rfl hne
          | cons a l => simp
        cases hgl : wl.getLast? with
        | none =>
          exact Option.noConfusion
        | some node =>
          simp only []
          by_cases hem : em node
          · rw [if_pos hem]
            apply ih
            · rw [List.length_dropLast]; omega
            · rw [List.length_dropLast]; omega
          · rw [if_neg hem]
            by_cases hdl : dl node
            · have : ¬ (¬ dl node = true) := by simp [hdl]
              rw [if_neg this]
              apply ih
              · simp only [List.length_cons, List.length_dropLast]; omega
              · simp only [List.length_cons, List.length_dropLast]; omega
            · have : (¬ dl node = true) := by simp [hdl]
              rw [if_pos this]
              exact Option.noConfusion

/-- A node returned by `Scheduler.next` is neither emitted nor delayed. -/
theorem nextAux_some_not_emitted (em dl : SNode → Bool) :
    ∀ (fuel : Nat) (wl : List SNode) (visited : Nat) (n : SNode)
    (wl' : List SNode), nextAux em dl fuel wl visited = some (some n, wl') →
    em n = false ∧ dl n = false := by
  intro fuel
  induction fuel with
  | zero => intro wl visited n wl' h; cases h
  | succ fuel ih =>
    intro wl visited n wl' h
    unfold nextAux at h
    by_cases he : wl.isEmpty
    · rw [if_pos he] at h; cases h
    · rw [if_neg he] at h
      by_cases hvl : visited = wl.length
      · rw [if_pos hvl] at h; cases h
      · rw [if_neg hvl] at h
        cases hgl : wl.getLast? with
        | none => rw [hgl] at h; cases h
        | some node =>
          rw [hgl] at h
          simp only [] at h
          by_cases hem : em node
          · rw [if_pos hem] at h
            exact ih _ _ _ _ h
          · rw [if_neg hem] at h
            by_cases hdl : dl node
            · have hnn : ¬ (¬ dl node = true) := by simp [hdl]
              rw [if_neg hnn] at h
              exact ih _ _ _ _ h
            · have hnn : (¬ dl node = true) := by simp [hdl]
              rw [if_pos hnn] at h
              cases h with
              | refl =>
                exact ⟨Bool.not_eq_true _ ▸ (by simpa using hem),
                  Bool.not_eq_true _ ▸ (by simpa using hdl)⟩

/-- When every worklist node is emitted or delayed, `Scheduler.next`
returns no candidate. -/
theorem nextAux_all_delayed (em dl : SNode → Bool) :
    ∀ (fuel : Nat) (wl : List SNode) (visited : Nat),
    (∀ n ∈ wl, em n = true ∨ dl n = true) →
    ∀ r, nextAux em dl fuel wl visited = some r → r.1 = none := by
  intro fuel
  induction fuel with
  | zero => intro wl visited _ r h; cases h
  | succ fuel ih =>
    intro wl visited hall r h
    unfold nextAux at h
    by_cases he : wl.isEmpty
    · rw [if_pos he] at h; cases h; rfl
    · rw [if_neg he] at h
      by_cases hvl : visited = wl.length
      · rw [if_pos hvl] at h; cases h; rfl
      · rw [if_neg hvl] at h
        cases hgl : wl.getLast? with
        | none => rw [hgl] at h; cases h; rfl
        | some node =>
          rw [hgl] at h
          simp only [] at h
          have hmem : node ∈ wl := List.mem_of_mem_getLast? hgl
          by_cases hem : em node
          · rw [if_pos hem] at h
            exact ih _ _ (fun x hx =>
              hall x (List.mem_of_mem_dropLast hx)) r h
          · rw [if_neg hem] at h
            have hdl : dl node = true := by
              rcases hall node hmem with h1 | h1
              · exact absurd h1 hem
              · exact h1
            have hnn : ¬ (¬ dl node = true) := by simp [hdl]
            rw [if_neg hnn] at h
            refine ih _ _ ?_ r h
            intro x hx
            rcases List.mem_cons.mp hx with h1 | h1
            · rw [h1]; exact Or.inr hdl
            · exact hall x (List.mem_of_mem_dropLast h1)

/-- C10: `Scheduler.next` always terminates (the fuel `2·|worklist| + 1`
supplied by `schedNext` is never exhausted), never returns an
already-emitted node (the returned candidate is neither emitted nor
delayed; emitted nodes are dropped silently, delayed nodes are reinserted
at the head), and when every remaining worklist node is delayed it returns
`None` instead of looping forever. -/
theorem c10_scheduler_next_spec (em dl : SNode → Bool) (wl : List SNode) :
    (schedNext em dl wl).isSome = true ∧
    (∀ n wl', schedNext em dl wl = some (some n, wl') →
      em n = false ∧ dl n = false) ∧
    ((∀ n ∈ wl, dl n = true) →
      ∀ r, schedNext em dl wl = some r → r.1 = none) := by
  refine ⟨?_, ?_, ?_⟩
  · cases hr : schedNext em dl wl with
    | none =>
      exact absurd hr (nextAux_ne_none em dl (2 * wl.length + 1) wl 0
        (Nat.zero_le _) (by omega))
    | some r => rfl
  · intro n wl' h
    exact nextAux_some_not_emitted em dl _ _ _ _ _ h
  · intro hall r h
    exact nextAux_all_delayed em dl _ _ _ (fun n hn => Or.inr (hall n hn)) r h

/-- C10 witness: with one never-emitted, always-delayed node, `next`
terminates and returns no candidate (the node is rotated once, the visited
counter reaches the worklist length, and `None` is returned). -/
theorem c10_witness_all_delayed :
    (schedNext (fun _ => false) (fun _ => true) [nodeA]).isSome = true ∧
    (((none : Option SNode), [nodeA]).1 = none) := by
  have h := c10_scheduler_next_spec (fun _ => false) (fun _ => true) [nodeA]
  exact ⟨h.1, h.2.2 (fun n _ => rfl) ((none : Option SNode), [nodeA])
    (by decide)⟩

/-- One out-edge pass does not change the emitted set. -/
theorem markStepF_emitted (acc : VState) (e : Edge) :
    (markStepF acc e).emitted = acc.emitted := by
  simp only [markStepF]
  split <;> rfl

/-- One out-edge pass does not change the oplist. -/
theorem markStepF_oplist (acc : VState) (e : Edge) :
    (markStepF acc e).oplist = acc.oplist := by
  simp only [markStepF]
  split <;> rfl

/-- One out-edge pass does not change the pack membership. -/
theorem markStepF_packOf (acc : VState) (e : Edge) :
    (markStepF acc e).packOf = acc.packOf := by
  simp only [markStepF]
  split <;> rfl

/-- One out-edge pass removes exactly (an occurrence of) the edge. -/
theorem markStepF_edges (acc : VState) (e : Edge) :
    (markStepF acc e).edges = acc.edges.erase e := by
  simp only [markStepF]
  split <;> rfl

/-- The out-edge fold does not change the emitted set. -/
theorem markFold_emitted :
    ∀ (l : List Edge) (acc : VState),
    (l.foldl markStepF acc).emitted = acc.emitted := by
  intro l
  induction l with
  | nil => intro acc; rfl
  | cons e rest ih =>
    intro acc
    simp only [List.foldl_cons]
    rw [ih, markStepF_emitted]

/-- The out-edge fold does not change the oplist. -/
theorem markFold_oplist :
    ∀ (l : List Edge) (acc : VState),
    (l.foldl markStepF acc).oplist = acc.oplist := by
  intro l
  induction l with
  | nil => intro acc; rfl
  | cons e rest ih =>
    intro acc
    simp only [List.foldl_cons]
    rw [ih, markStepF_oplist]

/-- The out-edge fold does not change the pack membership. -/
theorem markFold_packOf :
    ∀ (l : List Edge) (acc : VState),
    (l.foldl markStepF acc).packOf = acc.packOf := by
  intro l
  induction l with
  | nil => intro acc; rfl
  | cons e rest ih =>
    intro acc
    simp only [List.foldl_cons]
    rw [ih, markStepF_packOf]

/-- The out-edge fold only removes edges. -/
theorem markFold_edges_sub :
    ∀ (l : List Edge) (acc : VState) (e : Edge),
    e ∈ (l.foldl markStepF acc).edges → e ∈ acc.edges := by
  intro l
  induction l with
  | nil => intro acc e h; exact h
  | cons p rest ih =>
    intro acc e h
    simp only [List.foldl_cons] at h
    have := ih _ _ h
    rw [markStepF_edges] at this
    exact List.mem_of_mem_erase this

/-- The out-edge fold keeps every edge different from all processed
edges. -/
theorem markFold_edges_kept :
    ∀ (l : List Edge) (acc : VState) (e : Edge),
    e ∈ acc.edges → (∀ p ∈ l, e ≠ p) →
    e ∈ (l.foldl markStepF acc).edges := by
  intro l
  induction l with
  | nil => intro acc e h _; exact h
  | cons p rest ih =>
    intro acc e h hne
    simp only [List.foldl_cons]
    apply ih
    · rw [markStepF_edges]
      exact (List.mem_erase_of_ne (hne p (List.mem_cons_self p rest))).mpr h
    · intro q hq
      exact hne q (List.mem_cons_of_mem p hq)

/-- `mark_emitted` marks exactly the node emitted. -/
theorem markEmitted_emitted (node : SNode) (st : VState) :
    (markEmitted node st).emitted = node.nid :: st.emitted := by
  simp only [markEmitted]
  rw [markFold_emitted]

/-- `mark_emitted` does not change the oplist. -/
theorem markEmitted_oplist (node : SNode) (st : VState) :
    (markEmitted node st).oplist = st.oplist := by
  simp only [markEmitted]
  rw [markFold_oplist]

/-- `mark_emitted` does not change the pack membership. -/
theorem markEmitted_packOf (node : SNode) (st : VState) :
    (markEmitted node st).packOf = st.packOf := by
  simp only [markEmitted]
  rw [markFold_packOf]

/-- `mark_emitted` removes exactly the edges incident to the node (its
out-edges in the loop, the rest by `clear_dependencies`). -/
theorem markEmitted_edges_iff (node : SNode) (st : VState) (e : Edge) :
    e ∈ (markEmitted node st).edges ↔
    (e ∈ st.edges ∧ e.1.nid ≠ node.nid ∧ e.2.nid ≠ node.nid) := by
  simp only [markEmitted]
  simp only [List.mem_filter, decide_eq_true_eq]
  constructor
  · rintro ⟨hmem, hconds⟩
    exact ⟨markFold_edges_sub _ _ _ hmem, hconds⟩
  · rintro ⟨hmem, h1, h2⟩
    refine ⟨?_, h1, h2⟩
    apply markFold_edges_kept
    · exact hmem
    · intro p hp
      have hpnid : (p.1.nid == node.nid) = true := (List.mem_filter.mp hp).2
      intro heq
      rw [heq] at h1
      exact h1 (by simpa using hpnid)

/-- The member-wise `mark_emitted` fold of `VecScheduleState.emit` marks
exactly the members emitted. -/
theorem packFold_emitted :
    ∀ (members : List SNode) (st : VState) (n : Nat),
    n ∈ (members.foldl (fun acc m => markEmitted m acc) st).emitted ↔
    (n ∈ st.emitted ∨ n ∈ nidsOf members) := by
  intro members
  induction members with
  | nil =>
    intro st n
    simp [nidsOf]
  | cons m ms ih =>
    intro st n
    simp only [List.foldl_cons]
    rw [ih (markEmitted m st) n, markEmitted_emitted]
    simp only [nidsOf, List.map_cons, List.mem_cons]
    tauto

/-- The member-wise fold does not change the oplist. -/
theorem packFold_oplist :
    ∀ (members : List SNode) (st : VState),
    (members.foldl (fun acc m => markEmitted m acc) st).oplist = st.oplist := by
  intro members
  induction members with
  | nil => intro st; rfl
  | cons m ms ih =>
    intro st
    simp only [List.foldl_cons]
    rw [ih, markEmitted_oplist]

/-- The member-wise fold does not change the pack membership. -/
theorem packFold_packOf :
    ∀ (members : List SNode) (st : VState),
    (members.foldl (fun acc m => markEmitted m acc) st).packOf = st.packOf := by
  intro members
  induction members with
  | nil => intro st; rfl
  | cons m ms ih =>
    intro st
    simp only [List.foldl_cons]
    rw [ih, markEmitted_packOf]

/-- The member-wise fold removes exactly the edges incident to some
member. -/
theorem packFold_edges_iff :
    ∀ (members : List SNode) (st : VState) (e : Edge),
    e ∈ (members.foldl (fun acc m => markEmitted m acc) st).edges ↔
    (e ∈ st.edges ∧ ∀ m ∈ members, e.1.nid ≠ m.nid ∧ e.2.nid ≠ m.nid) := by
  intro members
  induction members with
  | nil =>
    intro st e
    simp
  | cons m ms ih =>
    intro st e
    simp only [List.foldl_cons]
    rw [ih (markEmitted m st) e, markEmitted_edges_iff]
    constructor
    · rintro ⟨⟨hm, h1, h2⟩, hall⟩
      refine ⟨hm, ?_⟩
      intro x hx
      rcases List.mem_cons.mp hx with h | h
      · rw [h]; exact ⟨h1, h2⟩
      · exact hall x h
    · rintro ⟨hm, hall⟩
      obtain ⟨h1, h2⟩ := hall m (List.mem_cons_self m ms)
      exact ⟨⟨hm, h1, h2⟩, fun x hx => hall x (List.mem_cons_of_mem m hx)⟩

/-- A vanishing dependency count means no incoming edge at all. -/
theorem dependsCount_zero {edges : List Edge} {n : Nat}
    (h : dependsCount edges n = 0) : ∀ e ∈ edges, e.2.nid ≠ n := by
  intro e he heq
  unfold dependsCount at h
  rw [List.length_eq_zero] at h
  have : e ∈ edges.filter (fun e => e.2.nid == n) :=
    List.mem_filter.mpr ⟨he, by simp [heq]⟩
  rw [h] at this
  cases this

/-- The scheduler invariant only depends on the four non-worklist
components. -/
theorem inv_of_eq {packs : List PackInfo} {E0 : List Edge}
    {st st' : VState} (he : st'.edges = st.edges)
    (hm : st'.emitted = st.emitted) (ho : st'.oplist = st.oplist)
    (hp : st'.packOf = st.packOf) (h : SchedInv packs E0 st) :
    SchedInv packs E0 st' := by
  obtain ⟨h1, h2, h3, h4, h5, h6, h7, h8, h9, h10, h11, h12, h13, h14, h15, h16, h17, h18⟩ := h
  constructor <;> simp only [he, hm, ho, hp] <;> assumption

/-- Clearing a pack removes the membership of exactly the nodes whose id
occurs among the pack's members. -/
theorem lookupPack_clear (pk : PackInfo) :
    ∀ (po : List (Nat × Nat)) (n : Nat),
    lookupPack (po.filter (fun kv => ¬ pk.members.any (fun m => m.nid == kv.1))) n =
    if pk.members.any (fun m => m.nid == n) then none else lookupPack po n := by
  intro po
  induction po with
  | nil =>
    intro n
    simp [lookupPack]
  | cons kv rest ih =>
    intro n
    by_cases hk : pk.members.any (fun m => m.nid == kv.1)
    · rw [List.filter_cons_of_neg (by simpa using hk)]
      rw [ih n]
      by_cases hn : pk.members.any (fun m => m.nid == n)
      · rw [if_pos hn, if_pos hn]
      · rw [if_neg hn, if_neg hn]
        unfold lookupPack
        rw [List.find?_cons_of_neg _ (by
          intro hkv
          rw [show kv.1 = n from by simpa using hkv] at hk
          exact hn hk)]
    · rw [List.filter_cons_of_pos (by simpa using hk)]
      by_cases hkv : kv.1 = n
      · have hn : ¬ pk.members.any (fun m => m.nid == n) := by
          rw [← hkv]; exact hk
        rw [if_neg hn]
        unfold lookupPack
        rw [List.find?_cons_of_pos _ (by simpa using hkv),
          List.find?_cons_of_pos _ (by simpa using hkv)]
      · unfold lookupPack
        rw [List.find?_cons_of_neg _ (by simpa using hkv),
          List.find?_cons_of_neg _ (by simpa using hkv)]
        exact ih n

/-- `try_to_trash_pack` succeeds only by clearing the pack of some
worklisted node. -/
theorem tryToTrashPack_true {packs : List PackInfo} {st st2 : VState}
    (h : tryToTrashPack packs st = (true, st2)) :
    ∃ (node : SNode) (pid : Nat) (pk : PackInfo),
      lookupPack st.packOf node.nid = some pid ∧
      findPack packs pid = some pk ∧
      st2 = { st with packOf := st.packOf.filter (fun kv => ¬ pk.members.any (fun m => m.nid == kv.1)) } := by
  unfold tryToTrashPack at h
  cases hfind : st.worklist.find? (fun n => (lookupPack st.packOf n.nid).isSome) with
  | none => rw [hfind] at h; cases h
  | some node =>
    rw [hfind] at h
    simp only [] at h
    cases hlp : lookupPack st.packOf node.nid with
    | none => rw [hlp] at h; simp only [] at h; cases h
    | some pid =>
      rw [hlp] at h
      simp only [] at h
      cases hfp : findPack packs pid with
      | none => rw [hfp] at h; simp only [] at h; cases h
      | some pk =>
        rw [hfp] at h
        simp only [] at h
        by_cases hany : pk.members.any (fun m => dependsCount st.edges m.nid > 0)
        · rw [if_pos hany] at h
          refine ⟨node, pid, pk, hlp, hfp, ?_⟩
          cases h
          rfl
        · rw [if_neg hany] at h
          cases h

/-- Unfolding a false `Scheduler.delay`. -/
theorem schedDelay_false {packs : List PackInfo} {st : VState} {n : SNode}
    (h : schedDelay packs st n = false) :
    vecDelay packs st n = false ∧ dependsCount st.edges n.nid = 0 := by
  unfold schedDelay at h
  rw [Bool.or_eq_false_iff] at h
  refine ⟨h.1, ?_⟩
  have := h.2
  simpa using this

/-- A non-delayed node of a non-accumulating pack has every member's
dependency count at zero. -/
theorem vecDelay_false_nonaccum {packs : List PackInfo} {st : VState}
    {n : SNode} {pid : Nat} {pk : PackInfo}
    (h : vecDelay packs st n = false)
    (hlp : lookupPack st.packOf n.nid = some pid)
    (hfp : findPack packs pid = some pk) (hacc : pk.accum = false) :
    ∀ m ∈ pk.members, dependsCount st.edges m.nid = 0 := by
  unfold vecDelay at h
  rw [hlp] at h
  simp only [] at h
  rw [hfp] at h
  simp only [] at h
  rw [hacc] at h
  simp only [Bool.false_eq_true, if_false, List.any_eq_false] at h
  intro m hm
  have := h m hm
  simpa using this

/-- A non-delayed node of an accumulating pack has every member's remaining
dependency sources inside the pack. -/
theorem vecDelay_false_accum {packs : List PackInfo} {st : VState}
    {n : SNode} {pid : Nat} {pk : PackInfo}
    (h : vecDelay packs st n = false)
    (hlp : lookupPack st.packOf n.nid = some pid)
    (hfp : findPack packs pid = some pk) (hacc : pk.accum = true) :
    ∀ m ∈ pk.members, ∀ e ∈ st.edges, e.2.nid = m.nid →
    lookupPack st.packOf e.1.nid = some pid := by
  unfold vecDelay at h
  rw [hlp] at h
  simp only [] at h
  rw [hfp] at h
  simp only [] at h
  rw [hacc] at h
  simp only [if_true, List.any_eq_false] at h
  intro m hm e he heq
  have h1 : st.edges.any (fun e =>
      e.2.nid == m.nid && lookupPack st.packOf e.1.nid != some pid) = false := by
    simpa using h m hm
  rw [List.any_eq_false] at h1
  have h2 : (e.2.nid == m.nid && lookupPack st.packOf e.1.nid != some pid)
      = false := by
    simpa using h1 e he
  rw [Bool.and_eq_false_iff] at h2
  rcases h2 with h2 | h2
  · rw [show (e.2.nid == m.nid) = true from by simp [heq]] at h2
    cases h2
  · simpa using h2

/-- Positions in a list extended by one element. -/
theorem getElem?_snoc_cases {α : Type} {l : List α} {x y : α} {i : Nat}
    (h : (l ++ [x])[i]? = some y) :
    (i < l.length ∧ l[i]? = some y) ∨ (i = l.length ∧ y = x) := by
  by_cases hi : i < l.length
  · rw [List.getElem?_append_left hi] at h
    exact Or.inl ⟨hi, h⟩
  · by_cases hieq : i = l.length
    · rw [hieq, List.getElem?_concat_length] at h
      cases h
      exact Or.inr ⟨hieq, rfl⟩
    · have : (l ++ [x]).length ≤ i := by
        simp only [List.length_append, List.length_singleton]
        omega
      rw [List.getElem?_len_le this] at h
      cases h

/-- A successful index lookup is a membership. -/
theorem mem_of_getElem? {α : Type} {l : List α} {i : Nat} {y : α}
    (h : l[i]? = some y) : y ∈ l := by
  rw [List.getElem?_eq_some] at h
  obtain ⟨hlt, heq⟩ := h
  rw [← heq]
  exact List.getElem_mem hlt

/-- A node id occurs among a member list's node ids iff some member bears
it. -/
theorem mem_nidsOf {n : Nat} {l : List SNode} :
    n ∈ nidsOf l ↔ ∃ m ∈ l, m.nid = n := by
  unfold nidsOf
  simp [List.mem_map]

/-- The pack of a node selected for trashing is fully alive: every member
currently points at it. -/
theorem pack_alive {packs : List PackInfo} {E0 : List Edge} {st : VState}
    (hInv : SchedInv packs E0 st) {nid : Nat} {pid : Nat} {pk : PackInfo}
    (hlp : lookupPack st.packOf nid = some pid)
    (hfp : findPack packs pid = some pk) :
    ∀ m ∈ pk.members, lookupPack st.packOf m.nid = some pid := by
  obtain ⟨pk', hfp', hnidmem⟩ := hInv.packof_member nid pid hlp
  rw [hfp] at hfp'
  cases hfp'
  rcases hInv.packof_allnone pid pk hfp with hal | hdead
  · exact hal
  · obtain ⟨m, hm, hmnid⟩ := mem_nidsOf.mp hnidmem
    rw [← hmnid] at hlp
    exact absurd hlp (hdead m hm)

/-- Trashing a pack (`try_to_trash_pack` clearing the membership of its
members) preserves the scheduler invariant. -/
theorem inv_trash {packs : List PackInfo} {E0 : List Edge} {st : VState}
    (hInv : SchedInv packs E0 st) {node : SNode} {pid : Nat} {pk : PackInfo}
    (hlp : lookupPack st.packOf node.nid = some pid)
    (hfp : findPack packs pid = some pk) :
    SchedInv packs E0 { st with packOf := st.packOf.filter (fun kv => ¬ pk.members.any (fun m => m.nid == kv.1)) } := by
  have halive := pack_alive hInv hlp hfp
  have hclear := lookupPack_clear pk st.packOf
  refine
    { edges_sub := hInv.edges_sub
      edges_src_live := hInv.edges_src_live
      edges_tgt_live := hInv.edges_tgt_live
      removed_emitted := hInv.removed_emitted
      scalar_emitted := hInv.scalar_emitted
      vec_members := hInv.vec_members
      vec_no_scalar := hInv.vec_no_scalar
      vec_unique := hInv.vec_unique
      scalar_order := hInv.scalar_order
      source_emitted := hInv.source_emitted
      source_emitted_vec := hInv.source_emitted_vec
      vec_order := hInv.vec_order
      scalar_unique := hInv.scalar_unique
      vec_scalar_order := hInv.vec_scalar_order
      vec_vec_order := hInv.vec_vec_order
      emitted_pack_vec := ?_
      packof_member := ?_
      packof_allnone := ?_ }
  · intro n q hn hl
    rw [show ({ st with packOf := st.packOf.filter (fun kv => ¬ pk.members.any (fun m => m.nid == kv.1)) } : VState).packOf = st.packOf.filter (fun kv => ¬ pk.members.any (fun m => m.nid == kv.1)) from rfl] at hl
    rw [hclear n] at hl
    by_cases hany : pk.members.any (fun m => m.nid == n)
    · rw [if_pos hany] at hl; cases hl
    · rw [if_neg hany] at hl
      exact hInv.emitted_pack_vec n q hn hl
  · intro n q hl
    rw [show ({ st with packOf := st.packOf.filter (fun kv => ¬ pk.members.any (fun m => m.nid == kv.1)) } : VState).packOf = st.packOf.filter (fun kv => ¬ pk.members.any (fun m => m.nid == kv.1)) from rfl] at hl
    rw [hclear n] at hl
    by_cases hany : pk.members.any (fun m => m.nid == n)
    · rw [if_pos hany] at hl; cases hl
    · rw [if_neg hany] at hl
      exact hInv.packof_member n q hl
  · intro q pkq hq
    have hproj : ({ st with packOf := st.packOf.filter (fun kv => ¬ pk.members.any (fun m => m.nid == kv.1)) } : VState).packOf = st.packOf.filter (fun kv => ¬ pk.members.any (fun m => m.nid == kv.1)) := rfl
    rcases hInv.packof_allnone q pkq hq with hal | hdd
    · by_cases hex : ∃ m0 ∈ pkq.members, pk.members.any (fun m => m.nid == m0.nid) = true
      · obtain ⟨m0, hm0, hany0⟩ := hex
        have hq_pid : q = pid := by
          obtain ⟨m1, hm1, hm1nid⟩ := by
            simpa using List.any_eq_true.mp hany0
          have h1 := halive m1 hm1
          rw [hm1nid] at h1
          have h2 := hal m0 hm0
          rw [h1] at h2
          exact (Option.some.injEq _ _ ▸ h2).symm
        subst hq_pid
        rw [hfp] at hq
        cases hq
        refine Or.inr ?_
        intro m hm
        rw [hproj, hclear m.nid]
        rw [if_pos (by simp only [List.any_eq_true]; exact ⟨m, hm, by simp⟩)]
        exact Option.noConfusion
      · push_neg at hex
        refine Or.inl ?_
        intro m hm
        rw [hproj, hclear m.nid]
        have := hex m hm
        rw [if_neg (by simpa using this)]
        exact hal m hm
    · refine Or.inr ?_
      intro m hm
      rw [hproj, hclear m.nid]
      by_cases hany : pk.members.any (fun m2 => m2.nid == m.nid)
      · rw [if_pos hany]
        exact Option.noConfusion
      · rw [if_neg hany]
        exact hdd m hm

/-- Marking a dependency-free, not-yet-emitted node emitted preserves the
scheduler invariant (the common part of the scalar-emission path; for
imaginary nodes this is the whole step). -/
theorem inv_scalar_mark {packs : List PackInfo} {E0 : List Edge}
    {st : VState} (node : SNode) (hInv : SchedInv packs E0 st)
    (hlp : lookupPack st.packOf node.nid = none) :
    SchedInv packs E0 (markEmitted node st) := by
  have hME := markEmitted_emitted node st
  have hMO := markEmitted_oplist node st
  have hMP := markEmitted_packOf node st
  have hIff := markEmitted_edges_iff node st
  refine
    { edges_sub := ?_
      edges_src_live := ?_
      edges_tgt_live := ?_
      removed_emitted := ?_
      scalar_emitted := ?_
      emitted_pack_vec := ?_
      vec_members := ?_
      vec_no_scalar := ?_
      vec_unique := ?_
      scalar_order := ?_
      source_emitted := ?_
      source_emitted_vec := ?_
      vec_order := ?_
      packof_member := ?_
      packof_allnone := ?_
      scalar_unique := ?_
      vec_scalar_order := ?_
      vec_vec_order := ?_ }
  · intro e he
    exact hInv.edges_sub e ((hIff e).mp he).1
  · intro e he
    obtain ⟨h1, h2, h3⟩ := (hIff e).mp he
    rw [hME]
    intro hmem
    rcases List.mem_cons.mp hmem with h | h
    · exact h2 h
    · exact hInv.edges_src_live e h1 h
  · intro e he
    obtain ⟨h1, h2, h3⟩ := (hIff e).mp he
    rw [hME]
    intro hmem
    rcases List.mem_cons.mp hmem with h | h
    · exact h3 h
    · exact hInv.edges_tgt_live e h1 h
  · intro e heE hne
    rw [hME]
    by_cases hst : e ∈ st.edges
    · by_cases h1 : e.1.nid = node.nid
      · exact Or.inl (by rw [h1]; exact List.mem_cons_self _ _)
      · by_cases h2 : e.2.nid = node.nid
        · exact Or.inr (by rw [h2]; exact List.mem_cons_self _ _)
        · exact absurd ((hIff e).mpr ⟨hst, h1, h2⟩) hne
    · rcases hInv.removed_emitted e heE hst with h | h
      · exact Or.inl (List.mem_cons_of_mem _ h)
      · exact Or.inr (List.mem_cons_of_mem _ h)
  · intro n h
    rw [hMO] at h
    rw [hME]
    exact List.mem_cons_of_mem _ (hInv.scalar_emitted n h)
  · intro n q hn hl
    rw [hME] at hn
    rw [hMP] at hl
    rw [hMO]
    rcases List.mem_cons.mp hn with h | h
    · rw [h] at hl
      rw [hlp] at hl
      cases hl
    · exact hInv.emitted_pack_vec n q h hl
  · intro q pkq hv hq m hm
    rw [hMO] at hv
    rw [hME]
    exact List.mem_cons_of_mem _ (hInv.vec_members q pkq hv hq m hm)
  · intro q pkq hv hq m hm
    rw [hMO] at hv ⊢
    exact hInv.vec_no_scalar q pkq hv hq m hm
  · intro q i j hi hj
    rw [hMO] at hi hj
    exact hInv.vec_unique q i j hi hj
  · intro e heE hne i j hi hj
    rw [hMO] at hi hj
    exact hInv.scalar_order e heE hne i j hi hj
  · intro e heE h
    rw [hMO] at h
    rw [hME]
    exact List.mem_cons_of_mem _ (hInv.source_emitted e heE h)
  · intro e heE q pkq hq hv hmm hnm
    rw [hMO] at hv
    rw [hME]
    exact List.mem_cons_of_mem _
      (hInv.source_emitted_vec e heE q pkq hq hv hmm hnm)
  · intro e heE q pkq hq hmm hnm i j hi hj
    rw [hMO] at hi hj
    exact hInv.vec_order e heE q pkq hq hmm hnm i j hi hj
  · intro n i j hi hj
    rw [hMO] at hi hj
    exact hInv.scalar_unique n i j hi hj
  · intro e heE pid pk hfp hma hmb i j hi hj
    rw [hMO] at hi hj
    exact hInv.vec_scalar_order e heE pid pk hfp hma hmb i j hi hj
  · intro e heE p q pkp pkq hfpp hfpq hma hnq hmb i j hi hj
    rw [hMO] at hi hj
    exact hInv.vec_vec_order e heE p q pkp pkq hfpp hfpq hma hnq hmb i j hi hj
  · intro n q h
    rw [hMP] at h
    exact hInv.packof_member n q h
  · intro q pkq hq
    simp only [hMP]
    exact hInv.packof_allnone q pkq hq

/-- The scalar-emission step (mark emitted, then append the scalar
operation) preserves the scheduler invariant. -/
theorem inv_scalar_append {packs : List PackInfo} {E0 : List Edge}
    {st : VState} (node : SNode) (hInv : SchedInv packs E0 st)
    (hnotem : node.nid ∉ st.emitted)
    (hlp : lookupPack st.packOf node.nid = none)
    (hdep : dependsCount st.edges node.nid = 0) :
    SchedInv packs E0 { markEmitted node st with
      oplist := (markEmitted node st).oplist ++ [EOp.scalar node.nid] } := by
  have hA := inv_scalar_mark node hInv hlp
  have hME := markEmitted_emitted node st
  have hMO := markEmitted_oplist node st
  have hMP := markEmitted_packOf node st
  have hNoIn := dependsCount_zero hdep
  refine
    { edges_sub := hA.edges_sub
      edges_src_live := hA.edges_src_live
      edges_tgt_live := hA.edges_tgt_live
      removed_emitted := hA.removed_emitted
      packof_member := hA.packof_member
      packof_allnone := hA.packof_allnone
      scalar_emitted := ?_
      emitted_pack_vec := ?_
      vec_members := ?_
      vec_no_scalar := ?_
      vec_unique := ?_
      scalar_order := ?_
      source_emitted := ?_
      source_emitted_vec := ?_
      vec_order := ?_
      scalar_unique := ?_
      vec_scalar_order := ?_
      vec_vec_order := ?_ }
  · intro n h
    rcases List.mem_append.mp h with h | h
    · exact hA.scalar_emitted n h
    · rw [List.mem_singleton] at h
      cases h
      rw [hME]
      exact List.mem_cons_self _ _
  · intro n q hn hl
    exact List.mem_append_left _ (hA.emitted_pack_vec n q hn hl)
  · intro q pkq hv hq m hm
    rcases List.mem_append.mp hv with h | h
    · exact hA.vec_members q pkq h hq m hm
    · rw [List.mem_singleton] at h
      cases h
  · intro q pkq hv hq m hm hc
    have hvo : EOp.vec q ∈ (markEmitted node st).oplist := by
      rcases List.mem_append.mp hv with h | h
      · exact h
      · rw [List.mem_singleton] at h; cases h
    rcases List.mem_append.mp hc with h | h
    · exact hA.vec_no_scalar q pkq hvo hq m hm h
    · rw [List.mem_singleton] at h
      have hmn : m.nid = node.nid := by injection h
      rw [hMO] at hvo
      have := hInv.vec_members q pkq hvo hq m hm
      rw [hmn] at this
      exact hnotem this
  · intro q i j hi hj
    rcases getElem?_snoc_cases hi with ⟨hi1, hi2⟩ | ⟨hi1, hi2⟩
    · rcases getElem?_snoc_cases hj with ⟨hj1, hj2⟩ | ⟨hj1, hj2⟩
      · exact hA.vec_unique q i j hi2 hj2
      · cases hj2
    · cases hi2
  · intro e heE hne i j hi hj
    rcases getElem?_snoc_cases hi with ⟨hi1, hi2⟩ | ⟨hi1, hi2⟩
    · rcases getElem?_snoc_cases hj with ⟨hj1, hj2⟩ | ⟨hj1, hj2⟩
      · exact hA.scalar_order e heE hne i j hi2 hj2
      · omega
    · rcases getElem?_snoc_cases hj with ⟨hj1, hj2⟩ | ⟨hj1, hj2⟩
      · have h1nid : e.1.nid = node.nid := by injection hi2
        have hmem : EOp.scalar e.2.nid ∈ st.oplist := by
          rw [← hMO]
          exact mem_of_getElem? hj2
        have := hInv.source_emitted e heE hmem
        rw [h1nid] at this
        exact absurd this hnotem
      · have h1nid : e.1.nid = node.nid := by injection hi2
        have h2nid : e.2.nid = node.nid := by injection hj2
        rw [h1nid, h2nid] at hne
        exact absurd rfl hne
  · intro e heE h
    rcases List.mem_append.mp h with h | h
    · exact hA.source_emitted e heE h
    · rw [List.mem_singleton] at h
      have h2nid : e.2.nid = node.nid := by injection h
      rw [hME]
      by_cases h1 : e.1.nid = node.nid
      · rw [h1]; exact List.mem_cons_self _ _
      · have hnotin : e ∉ st.edges := by
          intro hst
          exact hNoIn e hst h2nid
        rcases hInv.removed_emitted e heE hnotin with hh | hh
        · exact List.mem_cons_of_mem _ hh
        · rw [h2nid] at hh
          exact absurd hh hnotem
  · intro e heE q pkq hq hv hmm hnm
    have hvo : EOp.vec q ∈ (markEmitted node st).oplist := by
      rcases List.mem_append.mp hv with h | h
      · exact h
      · rw [List.mem_singleton] at h; cases h
    exact hA.source_emitted_vec e heE q pkq hq hvo hmm hnm
  · intro e heE q pkq hq hmm hnm i j hi hj
    rcases getElem?_snoc_cases hj with ⟨hj1, hj2⟩ | ⟨hj1, hj2⟩
    · rcases getElem?_snoc_cases hi with ⟨hi1, hi2⟩ | ⟨hi1, hi2⟩
      · exact hA.vec_order e heE q pkq hq hmm hnm i j hi2 hj2
      · have h1nid : e.1.nid = node.nid := by injection hi2
        have hvo : EOp.vec q ∈ st.oplist := by
          rw [← hMO]
          exact mem_of_getElem? hj2
        have := hInv.source_emitted_vec e heE q pkq hq hvo hmm hnm
        rw [h1nid] at this
        exact absurd this hnotem
    · cases hj2
  · intro n i j hi hj
    rcases getElem?_snoc_cases hi with ⟨hi1, hi2⟩ | ⟨hi1, hi2⟩
    · rcases getElem?_snoc_cases hj with ⟨hj1, hj2⟩ | ⟨hj1, hj2⟩
      · exact hA.scalar_unique n i j hi2 hj2
      · have hn : n = node.nid := by injection hj2
        rw [hMO] at hi2
        rw [hn] at hi2
        exact absurd (hInv.scalar_emitted node.nid (mem_of_getElem? hi2)) hnotem
    · rcases getElem?_snoc_cases hj with ⟨hj1, hj2⟩ | ⟨hj1, hj2⟩
      · have hn : n = node.nid := by injection hi2
        rw [hMO] at hj2
        rw [hn] at hj2
        exact absurd (hInv.scalar_emitted node.nid (mem_of_getElem? hj2)) hnotem
      · omega
  · intro e heE pid pk hfp hma hmb i j hi hj
    rcases getElem?_snoc_cases hi with ⟨hi1, hi2⟩ | ⟨hi1, hi2⟩
    · rcases getElem?_snoc_cases hj with ⟨hj1, hj2⟩ | ⟨hj1, hj2⟩
      · exact hA.vec_scalar_order e heE pid pk hfp hma hmb i j hi2 hj2
      · omega
    · cases hi2
  · intro e heE p q pkp pkq hfpp hfpq hma hnq hmb i j hi hj
    rcases getElem?_snoc_cases hi with ⟨hi1, hi2⟩ | ⟨hi1, hi2⟩
    · rcases getElem?_snoc_cases hj with ⟨hj1, hj2⟩ | ⟨hj1, hj2⟩
      · exact hA.vec_vec_order e heE p q pkp pkq hfpp hfpq hma hnq hmb i j hi2 hj2
      · cases hj2
    · cases hi2

/-- The pack-emission step of `VecScheduleState.emit` (mark every member
emitted, then append the pack's vector operation) preserves the scheduler
invariant, given that the selected member was neither emitted nor
delayed. -/
theorem inv_pack_emit {packs : List PackInfo} {E0 : List Edge} {st : VState}
    {node : SNode} {pid : Nat} {pk : PackInfo}
    (hInv : SchedInv packs E0 st)
    (hnotem : node.nid ∉ st.emitted)
    (hlp : lookupPack st.packOf node.nid = some pid)
    (hfp : findPack packs pid = some pk)
    (hvd : vecDelay packs st node = false) :
    SchedInv packs E0
      { pk.members.foldl (fun acc m => markEmitted m acc) st with
        oplist := (pk.members.foldl (fun acc m => markEmitted m acc) st).oplist
          ++ [EOp.vec pid] } := by
  have halive := pack_alive hInv hlp hfp
  have hnodemem : node.nid ∈ nidsOf pk.members := by
    obtain ⟨pk2, hfp2, hmem⟩ := hInv.packof_member node.nid pid hlp
    rw [hfp] at hfp2
    cases hfp2
    exact hmem
  have hfresh : EOp.vec pid ∉ st.oplist := by
    intro hin
    obtain ⟨m, hm, hmn⟩ := mem_nidsOf.mp hnodemem
    have := hInv.vec_members pid pk hin hfp m hm
    rw [hmn] at this
    exact hnotem this
  have hmemun : ∀ m ∈ pk.members, m.nid ∉ st.emitted := by
    intro m hm hem
    exact hfresh (hInv.emitted_pack_vec m.nid pid hem (halive m hm))
  have hextem : ∀ e ∈ E0, e.2.nid ∈ nidsOf pk.members →
      e.1.nid ∉ nidsOf pk.members → e.1.nid ∈ st.emitted := by
    intro e heE h2m h1m
    obtain ⟨m, hm, hmn⟩ := mem_nidsOf.mp h2m
    cases hacc : pk.accum with
    | false =>
      have hdz := vecDelay_false_nonaccum hvd hlp hfp hacc m hm
      have hnoedge : e ∉ st.edges := by
        intro hmem2
        exact dependsCount_zero hdz e hmem2 hmn.symm
      rcases hInv.removed_emitted e heE hnoedge with h | h
      · exact h
      · exact absurd h (hmn ▸ hmemun m hm)
    | true =>
      have hnoedge : e ∉ st.edges := by
        intro hmem2
        have hsrc := vecDelay_false_accum hvd hlp hfp hacc m hm e hmem2 hmn.symm
        obtain ⟨pk2, hfp2, hmem2s⟩ := hInv.packof_member e.1.nid pid hsrc
        rw [hfp] at hfp2
        cases hfp2
        exact h1m hmem2s
      rcases hInv.removed_emitted e heE hnoedge with h | h
      · exact h
      · exact absurd h (hmn ▸ hmemun m hm)
  have hE := packFold_emitted pk.members st
  have hO := packFold_oplist pk.members st
  have hP := packFold_packOf pk.members st
  have hEg := packFold_edges_iff pk.members st
  refine
    { edges_sub := ?_
      edges_src_live := ?_
      edges_tgt_live := ?_
      removed_emitted := ?_
      scalar_emitted := ?_
      emitted_pack_vec := ?_
      vec_members := ?_
      vec_no_scalar := ?_
      vec_unique := ?_
      scalar_order := ?_
      source_emitted := ?_
      source_emitted_vec := ?_
      vec_order := ?_
      packof_member := ?_
      packof_allnone := ?_
      scalar_unique := ?_
      vec_scalar_order := ?_
      vec_vec_order := ?_ }
  · intro e he
    exact hInv.edges_sub e ((hEg e).mp he).1
  · intro e he
    obtain ⟨hse, hall⟩ := (hEg e).mp he
    intro hmem
    rcases (hE e.1.nid).mp hmem with h | h
    · exact hInv.edges_src_live e hse h
    · obtain ⟨m, hm, hmn⟩ := mem_nidsOf.mp h
      exact (hall m hm).1 hmn.symm
  · intro e he
    obtain ⟨hse, hall⟩ := (hEg e).mp he
    intro hmem
    rcases (hE e.2.nid).mp hmem with h | h
    · exact hInv.edges_tgt_live e hse h
    · obtain ⟨m, hm, hmn⟩ := mem_nidsOf.mp h
      exact (hall m hm).2 hmn.symm
  · intro e heE hne
    by_cases h1 : e.1.nid ∈ (pk.members.foldl (fun acc m => markEmitted m acc) st).emitted
    · exact Or.inl h1
    · by_cases h2 : e.2.nid ∈ (pk.members.foldl (fun acc m => markEmitted m acc) st).emitted
      · exact Or.inr h2
      · exfalso
        have h1a : e.1.nid ∉ st.emitted := fun h => h1 ((hE e.1.nid).mpr (Or.inl h))
        have h1b : e.1.nid ∉ nidsOf pk.members := fun h => h1 ((hE e.1.nid).mpr (Or.inr h))
        have h2a : e.2.nid ∉ st.emitted := fun h => h2 ((hE e.2.nid).mpr (Or.inl h))
        have h2b : e.2.nid ∉ nidsOf pk.members := fun h => h2 ((hE e.2.nid).mpr (Or.inr h))
        by_cases hse : e ∈ st.edges
        · apply hne
          refine (hEg e).mpr ⟨hse, ?_⟩
          intro m hm
          constructor
          · intro heq
            exact h1b (mem_nidsOf.mpr ⟨m, hm, heq.symm⟩)
          · intro heq
            exact h2b (mem_nidsOf.mpr ⟨m, hm, heq.symm⟩)
        · rcases hInv.removed_emitted e heE hse with h | h
          · exact h1a h
          · exact h2a h
  · intro n h
    rcases List.mem_append.mp h with h | h
    · rw [hO] at h
      exact (hE n).mpr (Or.inl (hInv.scalar_emitted n h))
    · rw [List.mem_singleton] at h
      cases h
  · intro n q hn hl
    rw [hP] at hl
    rcases (hE n).mp hn with h | h
    · have := hInv.emitted_pack_vec n q h hl
      rw [← hO] at this
      exact List.mem_append_left _ this
    · obtain ⟨m, hm, hmn⟩ := mem_nidsOf.mp h
      have hal := halive m hm
      rw [hmn] at hal
      rw [hal] at hl
      have hq : q = pid := by injection hl; omega
      rw [hq]
      exact List.mem_append_right _ (List.mem_singleton.mpr rfl)
  · intro q pkq hv hq m hm
    rcases List.mem_append.mp hv with h | h
    · rw [hO] at h
      exact (hE m.nid).mpr (Or.inl (hInv.vec_members q pkq h hq m hm))
    · rw [List.mem_singleton] at h
      have hqe : q = pid := by injection h
      rw [hqe] at hq
      rw [hfp] at hq
      cases hq
      exact (hE m.nid).mpr (Or.inr (mem_nidsOf.mpr ⟨m, hm, rfl⟩))
  · intro q pkq hv hq m hm hc
    rcases List.mem_append.mp hc with hcs | hcs
    · rw [hO] at hcs
      rcases List.mem_append.mp hv with hvv | hvv
      · rw [hO] at hvv
        exact hInv.vec_no_scalar q pkq hvv hq m hm hcs
      · rw [List.mem_singleton] at hvv
        have hqe : q = pid := by injection hvv
        rw [hqe] at hq
        rw [hfp] at hq
        cases hq
        exact hmemun m hm (hInv.scalar_emitted m.nid hcs)
    · rw [List.mem_singleton] at hcs
      cases hcs
  · intro q i j hi hj
    rcases getElem?_snoc_cases hi with ⟨hi1, hi2⟩ | ⟨hi1, hi2⟩
    · rcases getElem?_snoc_cases hj with ⟨hj1, hj2⟩ | ⟨hj1, hj2⟩
      · rw [hO] at hi2 hj2
        exact hInv.vec_unique q i j hi2 hj2
      · have hqe : q = pid := by injection hj2
        rw [hqe] at hi2
        rw [hO] at hi2
        exact absurd (mem_of_getElem? hi2) hfresh
    · rcases getElem?_snoc_cases hj with ⟨hj1, hj2⟩ | ⟨hj1, hj2⟩
      · have hqe : q = pid := by injection hi2
        rw [hqe] at hj2
        rw [hO] at hj2
        exact absurd (mem_of_getElem? hj2) hfresh
      · omega
  · intro e heE hne i j hi hj
    rcases getElem?_snoc_cases hi with ⟨hi1, hi2⟩ | ⟨hi1, hi2⟩
    · rcases getElem?_snoc_cases hj with ⟨hj1, hj2⟩ | ⟨hj1, hj2⟩
      · rw [hO] at hi2 hj2
        exact hInv.scalar_order e heE hne i j hi2 hj2
      · cases hj2
    · cases hi2
  · intro e heE h
    rcases List.mem_append.mp h with h | h
    · rw [hO] at h
      exact (hE e.1.nid).mpr (Or.inl (hInv.source_emitted e heE h))
    · rw [List.mem_singleton] at h
      cases h
  · intro e heE q pkq hq hv hmm hnm
    rcases List.mem_append.mp hv with h | h
    · rw [hO] at h
      exact (hE e.1.nid).mpr
        (Or.inl (hInv.source_emitted_vec e heE q pkq hq h hmm hnm))
    · rw [List.mem_singleton] at h
      have hqe : q = pid := by injection h
      rw [hqe] at hq
      rw [hfp] at hq
      cases hq
      exact (hE e.1.nid).mpr (Or.inl (hextem e heE hmm hnm))
  · intro e heE q pkq hq hmm hnm i j hi hj
    rcases getElem?_snoc_cases hj with ⟨hj1, hj2⟩ | ⟨hj1, hj2⟩
    · rcases getElem?_snoc_cases hi with ⟨hi1, hi2⟩ | ⟨hi1, hi2⟩
      · rw [hO] at hi2 hj2
        exact hInv.vec_order e heE q pkq hq hmm hnm i j hi2 hj2
      · cases hi2
    · rcases getElem?_snoc_cases hi with ⟨hi1, hi2⟩ | ⟨hi1, hi2⟩
      · omega
      · cases hi2
  · intro n i j hi hj
    rcases getElem?_snoc_cases hi with ⟨hi1, hi2⟩ | ⟨hi1, hi2⟩
    · rcases getElem?_snoc_cases hj with ⟨hj1, hj2⟩ | ⟨hj1, hj2⟩
      · rw [hO] at hi2 hj2
        exact hInv.scalar_unique n i j hi2 hj2
      · cases hj2
    · cases hi2
  · intro e heE p pkp hfpp hma hmb i j hi hj
    rcases getElem?_snoc_cases hj with ⟨hj1, hj2⟩ | ⟨hj1, hj2⟩
    · rcases getElem?_snoc_cases hi with ⟨hi1, hi2⟩ | ⟨hi1, hi2⟩
      · rw [hO] at hi2 hj2
        exact hInv.vec_scalar_order e heE p pkp hfpp hma hmb i j hi2 hj2
      · have hpe : p = pid := by injection hi2
        rw [hpe] at hfpp
        rw [hfp] at hfpp
        cases hfpp
        rw [hO] at hj2
        have hsrc := hInv.source_emitted e heE (mem_of_getElem? hj2)
        obtain ⟨m, hmm, hmn⟩ := mem_nidsOf.mp hma
        rw [← hmn] at hsrc
        exact absurd hsrc (hmemun m hmm)
    · cases hj2
  · intro e heE p q pkp pkq hfpp hfpq hma hnq hmb i j hi hj
    rcases getElem?_snoc_cases hi with ⟨hi1, hi2⟩ | ⟨hi1, hi2⟩
    · rcases getElem?_snoc_cases hj with ⟨hj1, hj2⟩ | ⟨hj1, hj2⟩
      · rw [hO] at hi2 hj2
        exact hInv.vec_vec_order e heE p q pkp pkq hfpp hfpq hma hnq hmb i j hi2 hj2
      · omega
    · rcases getElem?_snoc_cases hj with ⟨hj1, hj2⟩ | ⟨hj1, hj2⟩
      · have hpe : p = pid := by injection hi2
        rw [hpe] at hfpp
        rw [hfp] at hfpp
        cases hfpp
        rw [hO] at hj2
        have hsrc := hInv.source_emitted_vec e heE q pkq hfpq
          (mem_of_getElem? hj2) hmb hnq
        obtain ⟨m, hmm, hmn⟩ := mem_nidsOf.mp hma
        rw [← hmn] at hsrc
        exact absurd hsrc (hmemun m hmm)
      · have hpe : p = pid := by injection hi2
        have hqe : q = pid := by injection hj2
        rw [hpe] at hfpp
        rw [hqe] at hfpq
        rw [hfp] at hfpp hfpq
        cases hfpp
        cases hfpq
        exact absurd hma hnq
  · intro n q h
    rw [hP] at h
    exact hInv.packof_member n q h
  · intro q pkq hq
    simp only [hP]
    exact hInv.packof_allnone q pkq hq

/-- `state.delay` only looks at the edges and the pack membership. -/
theorem vecDelay_congr {packs : List PackInfo} {st1 st2 : VState}
    (he : st1.edges = st2.edges) (hp : st1.packOf = st2.packOf) (n : SNode) :
    vecDelay packs st1 n = vecDelay packs st2 n := by
  unfold vecDelay
  simp only [he, hp]

/-- The invariant ignores the worklist component. -/
theorem inv_worklist {packs : List PackInfo} {E0 : List Edge} {st : VState}
    (wl : List SNode) (h : SchedInv packs E0 st) :
    SchedInv packs E0 { st with worklist := wl } := by
  refine inv_of_eq ?_ ?_ ?_ ?_ h <;> rfl

/-- A successful pack emission names a live supported pack and produces
exactly the member-fold state with the vector operation appended. -/
theorem vecEmit_true {packs : List PackInfo} {st st2 : VState} {node : SNode}
    (h : vecEmit packs st node = some (true, st2)) :
    ∃ (pid : Nat) (pk : PackInfo),
      lookupPack st.packOf node.nid = some pid ∧
      findPack packs pid = some pk ∧
      st2 = { pk.members.foldl (fun acc m => markEmitted m acc) st with
        oplist := (pk.members.foldl (fun acc m => markEmitted m acc) st).oplist
          ++ [EOp.vec pid] } := by
  unfold vecEmit at h
  cases hlp : lookupPack st.packOf node.nid with
  | none =>
    rw [hlp] at h
    simp only [Option.some.injEq, Prod.mk.injEq] at h
    cases h.1
  | some pid =>
    rw [hlp] at h
    simp only [] at h
    cases hfp : findPack packs pid with
    | none =>
      rw [hfp] at h
      simp only [] at h
      cases h
    | some pk =>
      rw [hfp] at h
      simp only [] at h
      by_cases hlen : pk.members.length ≤ 1
      · rw [if_pos hlen] at h
        cases h
      · rw [if_neg hlen] at h
        by_cases hsup : ¬ pk.supported = true
        · rw [if_pos hsup] at h
          cases h
        · rw [if_neg hsup] at h
          simp only [Option.some.injEq, Prod.mk.injEq] at h
          exact ⟨pid, pk, rfl, hfp, h.2.symm⟩

/-- A declined emission leaves the state unchanged and means the node has
no pack. -/
theorem vecEmit_false {packs : List PackInfo} {st st2 : VState} {node : SNode}
    (h : vecEmit packs st node = some (false, st2)) :
    st2 = st ∧ lookupPack st.packOf node.nid = none := by
  unfold vecEmit at h
  cases hlp : lookupPack st.packOf node.nid with
  | none =>
    rw [hlp] at h
    simp only [Option.some.injEq, Prod.mk.injEq] at h
    exact ⟨h.2.symm, rfl⟩
  | some pid =>
    rw [hlp] at h
    simp only [] at h
    cases hfp : findPack packs pid with
    | none =>
      rw [hfp] at h
      simp only [] at h
      cases h
    | some pk =>
      rw [hfp] at h
      simp only [] at h
      by_cases hlen : pk.members.length ≤ 1
      · rw [if_pos hlen] at h
        cases h
      · rw [if_neg hlen] at h
        by_cases hsup : ¬ pk.supported = true
        · rw [if_pos hsup] at h
          cases h
        · rw [if_neg hsup] at h
          simp only [Option.some.injEq, Prod.mk.injEq] at h
          cases h.1

/-- One iteration of `walk_and_emit` (scalar emission, pack emission or
pack trashing) preserves the scheduler invariant, whether it steps or
finishes. -/
theorem walkStep_inv {packs : List PackInfo} {E0 : List Edge} {st : VState}
    (hInv : SchedInv packs E0 st) :
    ∀ st', walkStep packs st = StepOut.step st' ∨
      walkStep packs st = StepOut.finished st' → SchedInv packs E0 st' := by
  intro st' h
  unfold walkStep at h
  by_cases he : st.worklist.isEmpty
  · rw [if_pos he] at h
    rcases h with h | h
    · cases h
    · cases h
      exact hInv
  · rw [if_neg he] at h
    cases hsn : schedNext (fun n => st.emitted.contains n.nid)
        (schedDelay packs st) st.worklist with
    | none =>
      rw [hsn] at h
      simp only [] at h
      rcases h with h | h <;> cases h
    | some p =>
      obtain ⟨onode, wl2⟩ := p
      cases onode with
      | none =>
        rw [hsn] at h
        simp only [] at h
        by_cases hwe : wl2.isEmpty
        · rw [if_pos hwe] at h
          rcases h with h | h
          · cases h
          · cases h
            exact inv_worklist wl2 hInv
        · rw [if_neg hwe] at h
          cases htr : tryToTrashPack packs { st with worklist := wl2 } with
          | mk b st2 =>
            cases b with
            | true =>
              rw [htr] at h
              simp only [] at h
              rcases h with h | h
              · cases h
                obtain ⟨nodeT, pid, pk, hlp, hfp, hst2⟩ := tryToTrashPack_true htr
                subst hst2
                exact inv_trash (inv_worklist wl2 hInv) hlp hfp
              · cases h
            | false =>
              rw [htr] at h
              simp only [] at h
              rcases h with h | h <;> cases h
      | some node =>
        rw [hsn] at h
        simp only [] at h
        have hsn2 : nextAux (fun n => st.emitted.contains n.nid)
            (schedDelay packs st) (2 * st.worklist.length + 1) st.worklist 0 =
            some (some node, wl2) := hsn
        obtain ⟨hem, hdl⟩ := nextAux_some_not_emitted
          (fun n => st.emitted.contains n.nid) (schedDelay packs st)
          _ _ _ _ _ hsn2
        have hem2 : st.emitted.contains node.nid = false := hem
        have hnotem : node.nid ∉ st.emitted := by
          intro hmem
          have h1 : st.emitted.elem node.nid = true := List.elem_iff.mpr hmem
          have h2 : st.emitted.elem node.nid = false := hem2
          rw [h1] at h2
          cases h2
        have hdelay := schedDelay_false hdl
        have hInv1 : SchedInv packs E0 { st with worklist := wl2 } :=
          inv_worklist wl2 hInv
        have hnotem1 : node.nid ∉ ({ st with worklist := wl2 } : VState).emitted :=
          hnotem
        cases hve : vecEmit packs { st with worklist := wl2 } node with
        | none =>
          rw [hve] at h
          simp only [] at h
          rcases h with h | h <;> cases h
        | some q =>
          obtain ⟨b, st2⟩ := q
          cases b with
          | true =>
            rw [hve] at h
            simp only [] at h
            rcases h with h | h
            · cases h
              obtain ⟨pid, pk, hlp, hfp, hst2⟩ := vecEmit_true hve
              subst hst2
              have hvd1 : vecDelay packs { st with worklist := wl2 } node = false :=
                (vecDelay_congr rfl rfl node).trans hdelay.1
              exact inv_pack_emit hInv1 hnotem1 hlp hfp hvd1
            · cases h
          | false =>
            rw [hve] at h
            simp only [] at h
            obtain ⟨hst2, hlpn⟩ := vecEmit_false hve
            subst hst2
            have hconF : ¬ (({ st with worklist := wl2 } : VState).emitted.contains node.nid = true) := by
              intro hc
              have hc2 : st.emitted.contains node.nid = true := hc
              rw [hem2] at hc2
              cases hc2
            rw [if_neg hconF] at h
            by_cases him : node.imaginary = true
            · rw [if_pos him] at h
              rcases h with h | h
              · cases h
                exact inv_scalar_mark node hInv1 hlpn
              · cases h
            · rw [if_neg him] at h
              rcases h with h | h
              · cases h
                have hdep1 : dependsCount ({ st with worklist := wl2 } : VState).edges node.nid = 0 :=
                  hdelay.2
                exact inv_scalar_append node hInv1 hnotem1 hlpn hdep1
              · cases h

/-- The scheduler invariant is carried through the whole `walk_and_emit`
loop. -/
theorem walkAndEmit_inv {packs : List PackInfo} {E0 : List Edge} :
    ∀ (fuel : Nat) (st st2 : VState), SchedInv packs E0 st →
    walkAndEmit packs fuel st = some st2 → SchedInv packs E0 st2 := by
  intro fuel
  induction fuel with
  | zero =>
    intro st st2 _ h
    cases h
  | succ fuel ih =>
    intro st st2 hInv h
    unfold walkAndEmit at h
    cases hws : walkStep packs st with
    | finished st1 =>
      rw [hws] at h
      simp only [] at h
      cases h
      exact walkStep_inv hInv _ (Or.inr hws)
    | step st1 =>
      rw [hws] at h
      simp only [] at h
      exact ih st1 st2 (walkStep_inv hInv st1 (Or.inl hws)) h
    | failed =>
      rw [hws] at h
      simp only [] at h
      cases h

/-- A fresh scheduling state (nothing emitted, empty oplist, edges equal to
the dependency graph, pack membership consistent with the packset)
satisfies the scheduler invariant. -/
theorem initial_inv {packs : List PackInfo} {st : VState}
    (hm : st.emitted = []) (ho : st.oplist = [])
    (hpm : ∀ n pid, lookupPack st.packOf n = some pid →
      ∃ pk, findPack packs pid = some pk ∧ n ∈ nidsOf pk.members)
    (hpa : ∀ pid pk, findPack packs pid = some pk →
      (∀ m ∈ pk.members, lookupPack st.packOf m.nid = some pid) ∨
      (∀ m ∈ pk.members, lookupPack st.packOf m.nid ≠ some pid)) :
    SchedInv packs st.edges st := by
  refine
    { edges_sub := fun e he => he
      edges_src_live := ?_
      edges_tgt_live := ?_
      removed_emitted := fun e heE hne => absurd heE hne
      scalar_emitted := ?_
      emitted_pack_vec := ?_
      vec_members := ?_
      vec_no_scalar := ?_
      vec_unique := ?_
      scalar_order := ?_
      source_emitted := ?_
      source_emitted_vec := ?_
      vec_order := ?_
      packof_member := hpm
      packof_allnone := hpa
      scalar_unique := ?_
      vec_scalar_order := ?_
      vec_vec_order := ?_ }
  · intro e _ hmem
    rw [hm] at hmem
    cases hmem
  · intro e _ hmem
    rw [hm] at hmem
    cases hmem
  · intro n hn
    rw [ho] at hn
    cases hn
  · intro n pid hn _
    rw [hm] at hn
    cases hn
  · intro pid pk hv _ m _
    rw [ho] at hv
    cases hv
  · intro pid pk hv _ m _ _
    rw [ho] at hv
    cases hv
  · intro pid i j hi _
    rw [ho] at hi
    rw [List.getElem?_nil] at hi
    cases hi
  · intro e _ _ i j hi _
    rw [ho] at hi
    rw [List.getElem?_nil] at hi
    cases hi
  · intro e _ hmem
    rw [ho] at hmem
    cases hmem
  · intro e _ pid pk _ hv _ _
    rw [ho] at hv
    cases hv
  · intro e _ pid pk _ _ _ i j hi _
    rw [ho] at hi
    rw [List.getElem?_nil] at hi
    cases hi
  · intro n i j hi _
    rw [ho] at hi
    rw [List.getElem?_nil] at hi
    cases hi
  · intro e _ pid pk _ _ _ i j hi _
    rw [ho] at hi
    rw [List.getElem?_nil] at hi
    cases hi
  · intro e _ p q pkp pkq _ _ _ _ _ i j hi _
    rw [ho] at hi
    rw [List.getElem?_nil] at hi
    cases hi

/-- C1: a completed `walk_and_emit` run from a fresh state (nothing
emitted, empty oplist, pack membership consistent with a packset whose
member lists are pairwise disjoint) emits the oplist as a topological sort
of the dependency graph.  Writing `appearsAt` for the positions of a
node's operation (its own scalar operation, or its pack's single vector
operation), every dependency edge's source operation strictly precedes
the target's operation whenever their positions differ (the positions
coincide exactly for two members of the same vectorized pack); spelled
out by emission kind: a scalar source precedes a scalar target, a scalar
source precedes a dependent pack's vector operation, a pack's vector
operation precedes every dependent scalar operation, and a pack's vector
operation precedes every dependent pack's vector operation.  All members
of a vectorized pack appear as that single vector operation, placed at
the position of the latest-scheduled member: each member is marked
emitted together with the others, never appears as a scalar operation,
every position where it appears holds exactly the pack's vector
operation, that operation occurs exactly once, and it stands after every
operation any member depends on and before every operation depending on
a member. -/
theorem c1_walk_and_emit_topological {packs : List PackInfo} {fuel : Nat}
    {st0 st2 : VState}
    (hm : st0.emitted = []) (ho : st0.oplist = [])
    (hpm : ∀ n pid, lookupPack st0.packOf n = some pid →
      ∃ pk, findPack packs pid = some pk ∧ n ∈ nidsOf pk.members)
    (hpa : ∀ pid pk, findPack packs pid = some pk →
      (∀ m ∈ pk.members, lookupPack st0.packOf m.nid = some pid) ∨
      (∀ m ∈ pk.members, lookupPack st0.packOf m.nid ≠ some pid))
    (hdisj : ∀ (p q : Nat) (pkp pkq : PackInfo), findPack packs p = some pkp →
      findPack packs q = some pkq → p ≠ q →
      ∀ n, n ∈ nidsOf pkp.members → n ∉ nidsOf pkq.members)
    (hrun : walkAndEmit packs fuel st0 = some st2) :
    (∀ e ∈ st0.edges, ∀ (i j : Nat), appearsAt packs st2 e.1.nid i →
      appearsAt packs st2 e.2.nid j → i ≠ j → i < j) ∧
    (∀ e ∈ st0.edges, e.1.nid ≠ e.2.nid → ∀ (i j : Nat),
      st2.oplist[i]? = some (EOp.scalar e.1.nid) →
      st2.oplist[j]? = some (EOp.scalar e.2.nid) → i < j) ∧
    (∀ pid pk, EOp.vec pid ∈ st2.oplist → findPack packs pid = some pk →
      ∀ m ∈ pk.members, m.nid ∈ st2.emitted ∧
        EOp.scalar m.nid ∉ st2.oplist ∧
        ∀ i, appearsAt packs st2 m.nid i →
          st2.oplist[i]? = some (EOp.vec pid)) ∧
    (∀ (pid : Nat) (i j : Nat), st2.oplist[i]? = some (EOp.vec pid) →
      st2.oplist[j]? = some (EOp.vec pid) → i = j) ∧
    (∀ e ∈ st0.edges, ∀ pid pk, findPack packs pid = some pk →
      e.2.nid ∈ nidsOf pk.members → e.1.nid ∉ nidsOf pk.members →
      ∀ (i j : Nat), st2.oplist[i]? = some (EOp.scalar e.1.nid) →
      st2.oplist[j]? = some (EOp.vec pid) → i < j) ∧
    (∀ e ∈ st0.edges, ∀ pid pk, findPack packs pid = some pk →
      e.1.nid ∈ nidsOf pk.members → e.2.nid ∉ nidsOf pk.members →
      ∀ (i j : Nat), st2.oplist[i]? = some (EOp.vec pid) →
      st2.oplist[j]? = some (EOp.scalar e.2.nid) → i < j) ∧
    (∀ e ∈ st0.edges, ∀ (p q : Nat) (pkp pkq : PackInfo),
      findPack packs p = some pkp → findPack packs q = some pkq → p ≠ q →
      e.1.nid ∈ nidsOf pkp.members → e.2.nid ∈ nidsOf pkq.members →
      ∀ (i j : Nat), st2.oplist[i]? = some (EOp.vec p) →
      st2.oplist[j]? = some (EOp.vec q) → i < j) := by
  have hInv0 : SchedInv packs st0.edges st0 := initial_inv hm ho hpm hpa
  have hInv := walkAndEmit_inv fuel st0 st2 hInv0 hrun
  have hvv : ∀ e ∈ st0.edges, ∀ (p q : Nat) (pkp pkq : PackInfo),
      findPack packs p = some pkp → findPack packs q = some pkq → p ≠ q →
      e.1.nid ∈ nidsOf pkp.members → e.2.nid ∈ nidsOf pkq.members →
      ∀ (i j : Nat), st2.oplist[i]? = some (EOp.vec p) →
      st2.oplist[j]? = some (EOp.vec q) → i < j := by
    intro e heE p q pkp pkq hfpp hfpq hpq hma hmb i j hi hj
    exact hInv.vec_vec_order e heE p q pkp pkq hfpp hfpq hma
      (hdisj p q pkp pkq hfpp hfpq hpq e.1.nid hma) hmb i j hi hj
  have honly : ∀ pid pk, EOp.vec pid ∈ st2.oplist →
      findPack packs pid = some pk → ∀ m ∈ pk.members,
      ∀ i, appearsAt packs st2 m.nid i →
      st2.oplist[i]? = some (EOp.vec pid) := by
    intro pid pk hv hq m hmem i hap
    rcases hap with hsc | ⟨q, pkq, hfpq, hmq, hvq⟩
    · exact absurd (mem_of_getElem? hsc)
        (hInv.vec_no_scalar pid pk hv hq m hmem)
    · by_cases hpq : q = pid
      · rw [hpq] at hvq
        exact hvq
      · exact absurd hmq (hdisj pid q pk pkq hq hfpq
          (fun hh => hpq hh.symm) m.nid (mem_nidsOf.mpr ⟨m, hmem, rfl⟩))
  refine ⟨?_, hInv.scalar_order, ?_, hInv.vec_unique, hInv.vec_order,
    hInv.vec_scalar_order, hvv⟩
  · intro e heE i j hai haj hne
    rcases hai with hsa | ⟨p, pkp, hfpp, hma, hva⟩
    · rcases haj with hsb | ⟨q, pkq, hfpq, hmb, hvb⟩
      · by_cases hab : e.1.nid = e.2.nid
        · rw [← hab] at hsb
          exact absurd (hInv.scalar_unique e.1.nid i j hsa hsb) hne
        · exact hInv.scalar_order e heE hab i j hsa hsb
      · have hnma : e.1.nid ∉ nidsOf pkq.members := by
          intro hin
          obtain ⟨m, hmm, hmn⟩ := mem_nidsOf.mp hin
          have hns := hInv.vec_no_scalar q pkq (mem_of_getElem? hvb) hfpq m hmm
          rw [hmn] at hns
          exact hns (mem_of_getElem? hsa)
        exact hInv.vec_order e heE q pkq hfpq hmb hnma i j hsa hvb
    · rcases haj with hsb | ⟨q, pkq, hfpq, hmb, hvb⟩
      · have hnmb : e.2.nid ∉ nidsOf pkp.members := by
          intro hin
          obtain ⟨m, hmm, hmn⟩ := mem_nidsOf.mp hin
          have hns := hInv.vec_no_scalar p pkp (mem_of_getElem? hva) hfpp m hmm
          rw [hmn] at hns
          exact hns (mem_of_getElem? hsb)
        exact hInv.vec_scalar_order e heE p pkp hfpp hma hnmb i j hva hsb
      · by_cases hpq : p = q
        · subst hpq
          rw [hfpp] at hfpq
          cases hfpq
          exact absurd (hInv.vec_unique p i j hva hvb) hne
        · exact hvv e heE p q pkp pkq hfpp hfpq hpq hma hmb i j hva hvb
  · intro pid pk hv hq m hmem
    exact ⟨hInv.vec_members pid pk hv hq m hmem,
      hInv.vec_no_scalar pid pk hv hq m hmem,
      honly pid pk hv hq m hmem⟩

/-- C1 witness: the two-node chain `nodeA → nodeB` with no packs schedules
to `[A, B]`; the claim instantiated at the edge and the two oplist
positions yields `0 < 1`. -/
theorem c1_witness_two_node_chain :
    walkAndEmit [] 10 sampleWalkState = some sampleWalkFinal ∧ (0 : Nat) < 1 := by
  have hrun : walkAndEmit [] 10 sampleWalkState = some sampleWalkFinal := by rfl
  refine ⟨hrun, ?_⟩
  have h := c1_walk_and_emit_topological rfl rfl
    (by
      intro n pid hx
      simp [lookupPack, sampleWalkState] at hx)
    (by
      intro pid pk hx
      simp [findPack] at hx)
    (by
      intro p q pkp pkq hx
      simp [findPack] at hx)
    hrun
  exact h.2.1 (nodeA, nodeB) (by decide) (by decide) 0 1 rfl rfl

end Sched
